import Mathlib

/-!
Shallow embedding of the `marcker` text-annotation pipeline
(src/sentence.rs, src/service.rs, src/dictionary.rs,
src/enricher/number.rs, src/enricher/stop_word.rs).

Rust `usize`/`u64` are modelled as `Nat`, `i64` as `Int` with explicit
two's-complement wrapping where the source can overflow.  Fallible Rust
functions returning `Result<_, anyhow::Error>` are modelled with
`Except Err _`; `panic!` is modelled with the `PanicOr` type.
Mutation of a `Sentence` through `&mut` is modelled by explicit state
passing.  The external stemmer (`rust_stemmers`) is an opaque function
parameter `stem : String → String`, exactly as the spec treats it.
-/

namespace Marcker

/-- Character-level model of `str::to_lowercase` restricted to the ASCII and
Cyrillic ranges exercised by this crate's inputs; Rust's full Unicode mapping
agrees with this one character-for-character on those ranges. -/
def toLowercaseChar (c : Char) : Char :=
  if 'A' ≤ c ∧ c ≤ 'Z' then Char.ofNat (c.toNat + 32)
  else if c.toNat ≥ 0x410 ∧ c.toNat ≤ 0x42F then Char.ofNat (c.toNat + 0x20)
  else if c.toNat = 0x401 then Char.ofNat 0x451
  else c

/-- Model of `char::is_ascii_whitespace` (space, tab, LF, FF, CR). -/
def isAsciiWhitespace (c : Char) : Bool :=
  c = ' ' ∨ c = '\t' ∨ c = '\n' ∨ c = Char.ofNat 0x0C ∨ c = '\r'

/-- Model of `char::is_ascii_punctuation`: the four ASCII punctuation blocks. -/
def isAsciiPunct (c : Char) : Bool :=
  (0x21 ≤ c.toNat ∧ c.toNat ≤ 0x2F) ∨ (0x3A ≤ c.toNat ∧ c.toNat ≤ 0x40) ∨
  (0x5B ≤ c.toNat ∧ c.toNat ≤ 0x60) ∨ (0x7B ≤ c.toNat ∧ c.toNat ≤ 0x7E)

/-- Model of `char::is_numeric` restricted to ASCII digits (the only numeric
characters this crate's tokenizer classification is exercised on; the
restriction does not affect any ordering/overlap invariant, which holds for
every classification predicate). -/
def isNumericChar (c : Char) : Bool :=
  '0' ≤ c ∧ c ≤ '9'

/-- Model of `u64::from_str`: an optional leading `+`, then a non-empty run of
ASCII digits, value required to fit in 64 bits. -/
def parseU64 (s : String) : Option Nat :=
  let cs := s.toList
  let ds := match cs with
    | '+' :: rest => rest
    | l => l
  if ds ≠ [] ∧ ds.all (fun c => c.isDigit) then
    let v := ds.foldl (fun a c => a * 10 + (c.toNat - 48)) 0
    if v < 2 ^ 64 then some v else none
  else none

/-- Reinterpretation `u64 as i64` (two's complement). -/
def u64AsI64 (v : Nat) : Int :=
  if v < 2 ^ 63 then (v : Int) else (v : Int) - 2 ^ 64

/-- Wrapping of an integer into the `i64` range, as release-mode Rust
arithmetic does. -/
def wrapI64 (x : Int) : Int :=
  (x + 2 ^ 63) % 2 ^ 64 - 2 ^ 63

/-- Model of anyhow-style errors produced by this crate: the typed
`StopWordError` and `Error::msg` messages. -/
inductive Err : Type where
  | stopWord (word : String)
  | msg (s : String)
deriving DecidableEq

/-- Model of a Rust `panic!` outcome versus a normal return. -/
inductive PanicOr (α : Type) : Type where
  | panic (msg : String)
  | ok (val : α)
deriving DecidableEq

/-- Embedding of `Loc` (sentence.rs): a start offset plus a length. -/
structure Loc : Type where
  start_index : Nat
  len : Nat
deriving DecidableEq

/-- Embedding of `Loc::new`. -/
def Loc.new (start_index len : Nat) : Loc :=
  ⟨start_index, len⟩

/-- Embedding of the `Meta` tagged union (sentence.rs); `BTreeMap` is modelled
as an association list. -/
inductive Meta : Type where
  | Bool (b : Bool)
  | Str (s : String)
  | I8 (v : Int)
  | U8 (v : Nat)
  | I16 (v : Int)
  | U16 (v : Nat)
  | I32 (v : Int)
  | U32 (v : Nat)
  | I64 (v : Int)
  | U64 (v : Nat)
  | Usize (v : Nat)
  | I128 (v : Int)
  | U128 (v : Nat)
  | Vec (vs : List Meta)
  | Map (m : List (String × Meta))

/-- Embedding of `Meta::as_usize`; the wrong tag is a `panic!` in the source
(the dynamic `{:?}` part of the panic message is elided). -/
def Meta.as_usize : Meta → PanicOr Nat
  | .Usize v => .ok v
  | _ => .panic "Expected usize value."

/-- Embedding of `Meta::as_i64`. -/
def Meta.as_i64 : Meta → PanicOr Int
  | .I64 v => .ok v
  | _ => .panic "Expected i64 value."

/-- Embedding of `Meta::as_u64`. -/
def Meta.as_u64 : Meta → PanicOr Nat
  | .U64 v => .ok v
  | _ => .panic "Expected u64 value."

/-- Association-list update modelling `BTreeMap::insert` (only lookups are
observable, so key order is irrelevant). -/
def metaInsert (key : String) (m : Meta) : List (String × Meta) → List (String × Meta)
  | [] => [(key, m)]
  | (k, v) :: rest => if k = key then (key, m) :: rest else (k, v) :: metaInsert key m rest

/-- Embedding of `Token` (sentence.rs). -/
structure Token : Type where
  val : String
  loc : Loc
  meta : List (String × Meta)

/-- Embedding of `Token::new`: empty metadata map. -/
def Token.new (val : String) (loc : Loc) : Token :=
  ⟨val, loc, []⟩

instance : Inhabited Token := ⟨Token.new "" (Loc.new 0 0)⟩

/-- Embedding of `Token::add_meta`. -/
def Token.add_meta (t : Token) (key : String) (m : Meta) : Token :=
  ⟨t.val, t.loc, metaInsert key m t.meta⟩

/-- Embedding of `Token::get_meta` (`BTreeMap::get`). -/
def Token.get_meta (t : Token) (key : String) : Option Meta :=
  t.meta.lookup key

/-- Embedding of `Sentence` (sentence.rs). -/
structure Sentence : Type where
  raw : String
  tokens : List Token

/-- Embedding of `Sentence::new`. -/
def Sentence.new (raw : String) (tokens : List Token) : Sentence :=
  ⟨raw, tokens⟩

/-- Embedding of `Sentence::by_loc`: character skip/take over the raw text. -/
def Sentence.by_loc (s : Sentence) (loc : Loc) : String :=
  ⟨(s.raw.toList.drop loc.start_index).take loc.len⟩

/-- Embedding of `TokenBuilder` (service.rs). -/
structure TokenBuilder : Type where
  token : String
  start_index : Nat
  len : Nat

/-- Embedding of `TokenBuilder::new`. -/
def TokenBuilder.new (start_index : Nat) : TokenBuilder :=
  ⟨"", start_index, 0⟩

/-- Embedding of `TokenBuilder::add_symbol`. -/
def TokenBuilder.add_symbol (b : TokenBuilder) (symbol : Char) : TokenBuilder :=
  ⟨b.token.push symbol, b.start_index, b.len + 1⟩

/-- Embedding of `TokenBuilder::done`: stem the accumulated text, keep the
accumulated location. -/
def TokenBuilder.done (stem : String → String) (b : TokenBuilder) : Token :=
  Token.new (stem b.token) (Loc.new b.start_index b.len)

/-- Embedding of the `Service` (service.rs): the stemming function and the
ordered enricher pipeline.  Each enricher's `enrich(&mut Sentence) ->
Result<(), Error>` is modelled as `Sentence → Except Err Sentence`. -/
structure Service : Type where
  stem : String → String
  pipeline : List (Sentence → Except Err Sentence)

/-- The loop body state of `Service::tokenize`: pushed tokens and the open
builder with its opening-character digit class. -/
def Service.tokenizeGo (stem : String → String) (tokens : List Token)
    (builder : Option (TokenBuilder × Bool)) : List (Nat × Char) → List Token
  | [] =>
    match builder with
    | some b => tokens ++ [b.1.done stem]
    | none => tokens
  | (index, symbol) :: rest =>
    if isAsciiWhitespace symbol then
      match builder with
      | some b => Service.tokenizeGo stem (tokens ++ [b.1.done stem]) none rest
      | none => Service.tokenizeGo stem tokens none rest
    else if isAsciiPunct symbol then
      let closed := match builder with
        | some b => tokens ++ [b.1.done stem]
        | none => tokens
      let punct := (TokenBuilder.new index).add_symbol symbol
      Service.tokenizeGo stem (closed ++ [punct.done stem]) none rest
    else
      let is_numeric := isNumericChar symbol
      match builder with
      | none =>
        Service.tokenizeGo stem tokens
          (some ((TokenBuilder.new index).add_symbol symbol, is_numeric)) rest
      | some (b, cls) =>
        if cls = is_numeric then
          Service.tokenizeGo stem tokens (some (b.add_symbol symbol, cls)) rest
        else
          Service.tokenizeGo stem (tokens ++ [b.done stem])
            (some ((TokenBuilder.new index).add_symbol symbol, is_numeric)) rest

/-- Embedding of `Service::tokenize`: lower-case the whole input, then scan the
enumerated characters. -/
def Service.tokenize (svc : Service) (msg : String) : List Token :=
  Service.tokenizeGo svc.stem [] none ((msg.toList.map toLowercaseChar).enum)

/-- The enricher loop of `Service::sentence`: apply each enricher in order,
stopping at the first failure (the `?` operator). -/
def runEnrichers : List (Sentence → Except Err Sentence) → Sentence → Except Err Sentence
  | [], s => .ok s
  | e :: rest, s =>
    match e s with
    | .error err => .error err
    | .ok s' => runEnrichers rest s'

/-- Embedding of `Service::sentence`: tokenize, then run the pipeline. -/
def Service.sentence (svc : Service) (msg : String) : Except Err Sentence :=
  runEnrichers svc.pipeline (Sentence.new msg (svc.tokenize msg))

/-- Metadata key `number.sign_index` (number.rs). -/
def SIGN_INDEX : String := "number.sign_index"

/-- Metadata key `number.number_index` (number.rs). -/
def NUMBER_INDEX : String := "number.number_index"

/-- Metadata key `number.number` (number.rs). -/
def VALUE : String := "number.number"

/-- Embedding of `Number` (number.rs): `Signed(i64)` / `Unsigned(u64)`. -/
inductive Number : Type where
  | Signed (v : Int)
  | Unsigned (v : Nat)
deriving DecidableEq

/-- The `let number = {...}` block of the `NumberEnricher::enrich` loop body:
parse the token's value as a `u64` and classify it using the immediately
preceding token's value (`-` or the locale word `минус`).  The source's
`(val as i64) * -1` is modelled with explicit 64-bit wrapping. -/
def NumberEnricher.numberAt (s : Sentence) (index : Nat) : Option Number :=
  match parseU64 ((s.tokens.getD index default).val) with
  | some val =>
    if 0 < index then
      if (s.tokens.getD (index - 1) default).val = "-" ∨
          (s.tokens.getD (index - 1) default).val = "минус" then
        some (.Signed (wrapI64 (u64AsI64 val * -1)))
      else
        some (.Unsigned val)
    else
      some (.Unsigned val)
  | none => none

/-- One iteration of the `NumberEnricher::enrich` loop at a given index:
classify the token, then write the metadata (value plus the sign/number
cross-reference indices in the signed case). -/
def NumberEnricher.enrichStep (s : Sentence) (index : Nat) : Sentence :=
  match NumberEnricher.numberAt s index with
  | some (.Signed number) =>
    let tokens₁ := s.tokens.set index
      (((s.tokens.getD index default).add_meta VALUE (.I64 number)).add_meta
        SIGN_INDEX (.Usize (index - 1)))
    let tokens₂ := tokens₁.set (index - 1)
      ((tokens₁.getD (index - 1) default).add_meta NUMBER_INDEX (.Usize index))
    ⟨s.raw, tokens₂⟩
  | some (.Unsigned number) =>
    ⟨s.raw, s.tokens.set index ((s.tokens.getD index default).add_meta VALUE (.U64 number))⟩
  | none => s

/-- Embedding of `NumberEnricher::enrich`: the `for index in 0..len` loop.
The source always returns `Ok(())`. -/
def NumberEnricher.enrich (s : Sentence) : Sentence :=
  (List.range s.tokens.length).foldl NumberEnricher.enrichStep s

/-- `NumberEnricher` as a pipeline stage (its `enrich` never fails). -/
def NumberEnricher.enrichFn : Sentence → Except Err Sentence :=
  fun s => .ok (NumberEnricher.enrich s)

/-- The `NumberEnricher::extract` loop; the `as_usize`/`as_i64`/`as_u64`
accessors can panic, so the result lives in `PanicOr`. -/
def NumberEnricher.extractGo (s : Sentence) (acc : List (Loc × Number)) :
    List Nat → PanicOr (List (Loc × Number))
  | [] => .ok acc
  | index :: rest =>
    let token := s.tokens.getD index default
    match token.get_meta VALUE with
    | some value =>
      match token.get_meta SIGN_INDEX with
      | some sign =>
        match sign.as_usize with
        | .panic m => .panic m
        | .ok si =>
          match value.as_i64 with
          | .panic m => .panic m
          | .ok v => NumberEnricher.extractGo s (acc ++ [(Loc.new si 2, .Signed v)]) rest
      | none =>
        match value.as_u64 with
        | .panic m => .panic m
        | .ok v => NumberEnricher.extractGo s (acc ++ [(Loc.new index 1, .Unsigned v)]) rest
    | none => NumberEnricher.extractGo s acc rest

/-- Embedding of `NumberEnricher::extract`. -/
def NumberEnricher.extract (s : Sentence) : PanicOr (List (Loc × Number)) :=
  NumberEnricher.extractGo s [] (List.range s.tokens.length)

/-- Metadata key `stop_word` (stop_word.rs). -/
def STOP_WORD : String := "stop_word"

/-- Marking a token as a stop word: `token.add_meta(STOP_WORD,
Meta::Bool(true))` at the given index (also what the learning test performs
manually through `tokens_mut`). -/
def Sentence.setStopWord (s : Sentence) (index : Nat) : Sentence :=
  ⟨s.raw, s.tokens.set index ((s.tokens.getD index default).add_meta STOP_WORD (.Bool true))⟩

/-- The `StopWordEnricher::enrich` loop.  The dictionary behind the read lock
is abstracted by its `contains` method, mirroring the `D: Dictionary`
generic. -/
def StopWordEnricher.enrichGo (contains : String → Bool) (brake : Bool) (s : Sentence) :
    List Nat → Except Err Sentence
  | [] => .ok s
  | index :: rest =>
    let token := s.tokens.getD index default
    if contains token.val then
      if brake then .error (.stopWord (s.by_loc token.loc))
      else StopWordEnricher.enrichGo contains brake (s.setStopWord index) rest
    else StopWordEnricher.enrichGo contains brake s rest

/-- Embedding of `StopWordEnricher::enrich`. -/
def StopWordEnricher.enrich (contains : String → Bool) (brake : Bool) (s : Sentence) :
    Except Err Sentence :=
  StopWordEnricher.enrichGo contains brake s (List.range s.tokens.length)

/-- `StopWordEnricher` as a pipeline stage. -/
def StopWordEnricher.enrichFn (contains : String → Bool) (brake : Bool) :
    Sentence → Except Err Sentence :=
  StopWordEnricher.enrich contains brake

/-- The `StopWordEnricher::update` loop: add every stop-word-flagged token's
value to the dictionary, threading the dictionary state `δ` through its
fallible `add`. -/
def StopWordEnricher.updateGo {δ : Type} (add : δ → String → Except Err (Bool × δ))
    (d : δ) (s : Sentence) : List Nat → Except Err δ
  | [] => .ok d
  | index :: rest =>
    let token := s.tokens.getD index default
    if (token.get_meta STOP_WORD).isSome then
      match add d token.val with
      | .error e => .error e
      | .ok (_, d') => StopWordEnricher.updateGo add d' s rest
    else StopWordEnricher.updateGo add d s rest

/-- Embedding of `StopWordEnricher::update` (the learning direction of
`Service::back_propagation` for this enricher). -/
def StopWordEnricher.update {δ : Type} (add : δ → String → Except Err (Bool × δ))
    (d : δ) (s : Sentence) : Except Err δ :=
  StopWordEnricher.updateGo add d s (List.range s.tokens.length)

/-- The `StopWordEnricher::extract` loop. -/
def StopWordEnricher.extractGo (s : Sentence) (acc : List (Loc × String)) :
    List Nat → List (Loc × String)
  | [] => acc
  | index :: rest =>
    let token := s.tokens.getD index default
    if (token.get_meta STOP_WORD).isSome then
      StopWordEnricher.extractGo s (acc ++ [(Loc.new index 1, s.by_loc token.loc)]) rest
    else StopWordEnricher.extractGo s acc rest

/-- Embedding of `StopWordEnricher::extract`. -/
def StopWordEnricher.extract (s : Sentence) : List (Loc × String) :=
  StopWordEnricher.extractGo s [] (List.range s.tokens.length)

/-- Embedding of `LocalDictionary<D>` (dictionary.rs).  The
`Arc<HashSet<String>>` is modelled by the set itself (as a list) plus a flag
recording whether the `Arc` is aliased (other holders exist), which is exactly
what `Arc::get_mut` tests; the generic backing dictionary `D` is the state
type `σ`. -/
structure LocalDictionary (σ : Type) : Type where
  dictionary : List String
  dictionaryShared : Bool
  inner : Option σ

/-- Embedding of `LocalDictionary::new`: a freshly created `Arc` is uniquely
owned, there is no backing dictionary. -/
def LocalDictionary.new {σ : Type} (data : List String) : LocalDictionary σ :=
  ⟨data, false, none⟩

/-- Embedding of `LocalDictionary::with_inner`. -/
def LocalDictionary.with_inner {σ : Type} (inner : σ) : LocalDictionary σ :=
  ⟨[], false, some inner⟩

/-- Embedding of `Dictionary::contains` for `LocalDictionary`. -/
def LocalDictionary.contains {σ : Type} (d : LocalDictionary σ) (word : String) : Bool :=
  d.dictionary.contains word

/-- Embedding of `Dictionary::add` for `LocalDictionary`: `Arc::get_mut`
fails on an aliased set; `HashSet::insert` reports whether the word is new;
only a newly inserted word is forwarded to the backing dictionary (whose
`add` is the parameter `innerAdd`). -/
def LocalDictionary.add {σ : Type} (innerAdd : σ → String → Except Err (Bool × σ))
    (d : LocalDictionary σ) (word : String) : Except Err (Bool × LocalDictionary σ) :=
  if d.dictionaryShared then .error (.msg "Unexpected error.")
  else if d.dictionary.contains word then .ok (false, d)
  else
    let dict' := word :: d.dictionary
    match d.inner with
    | none => .ok (true, ⟨dict', d.dictionaryShared, none⟩)
    | some i =>
      match innerAdd i word with
      | .error e => .error e
      | .ok (_, i') => .ok (true, ⟨dict', d.dictionaryShared, some i'⟩)

/-- Embedding of `Dictionary::sync` for `LocalDictionary`: replace the whole
set with the backing dictionary's snapshot (the fresh `Arc` is uniquely
owned). -/
def LocalDictionary.sync {σ : Type} (innerGetAll : σ → Except Err (List String))
    (d : LocalDictionary σ) : Except Err (LocalDictionary σ) :=
  match d.inner with
  | some i =>
    match innerGetAll i with
    | .error e => .error e
    | .ok all => .ok ⟨all, false, some i⟩
  | none => .ok d

/-- Embedding of `Dictionary::get_all` for `LocalDictionary`. -/
def LocalDictionary.get_all {σ : Type} (d : LocalDictionary σ) : Except Err (List String) :=
  .ok d.dictionary

/-- Embedding of the no-op `Empty` dictionary (dictionary.rs). -/
structure EmptyDict : Type where

/-- Embedding of `Dictionary::contains` for `Empty`. -/
def EmptyDict.contains (_ : EmptyDict) (_ : String) : Bool := false

/-- Embedding of `Dictionary::add` for `Empty`. -/
def EmptyDict.add (d : EmptyDict) (_ : String) : Except Err (Bool × EmptyDict) :=
  .ok (false, d)

/-- Embedding of `Dictionary::sync` for `Empty`. -/
def EmptyDict.sync (d : EmptyDict) : Except Err EmptyDict := .ok d

/-- Embedding of `Dictionary::get_all` for `Empty`. -/
def EmptyDict.get_all (_ : EmptyDict) : Except Err (List String) := .ok []

/-- The span-disjointness relation between two tokens: the earlier token's
span ends at or before the later token's span starts. -/
def SpanLe (a b : Token) : Prop :=
  a.loc.start_index + a.loc.len ≤ b.loc.start_index

instance : IsTrans Token SpanLe :=
  ⟨fun a b c hab hbc =>
    le_trans hab (le_trans (Nat.le_add_right b.loc.start_index b.loc.len) hbc)⟩

/-- Pushing a token whose span starts at or after every queued token's end
keeps the queue chained. -/
theorem chain_append_token {tokens : List Token} {t : Token}
    (hc : List.Chain' SpanLe tokens)
    (hb : ∀ u ∈ tokens, u.loc.start_index + u.loc.len ≤ t.loc.start_index) :
    List.Chain' SpanLe (tokens ++ [t]) := by
  rw [List.chain'_append]
  refine ⟨hc, List.chain'_singleton _, ?_⟩
  intro x hx y hy
  simp only [List.head?_cons, Option.mem_def, Option.some.injEq] at hy
  obtain ⟨hne, rfl⟩ := List.mem_getLast?_eq_getLast hx
  exact hy ▸ hb _ (List.getLast_mem hne)

/-- The builder's opening offset, or the current scan position when no token
is open: every already-finished token's span ends at or before this point. -/
def scanFloor (builder : Option (TokenBuilder × Bool)) (i : Nat) : Nat :=
  match builder with
  | some b => b.1.start_index
  | none => i

/-- The open builder covers exactly the characters from its opening offset up
to the current scan position. -/
def builderTight (builder : Option (TokenBuilder × Bool)) (i : Nat) : Prop :=
  match builder with
  | some b => b.1.start_index + b.1.len = i
  | none => True

/-- Main loop invariant of `Service::tokenize`: if the finished tokens are
chained, all end at or before the floor, and the open builder exactly covers
the scanned prefix, then the finished token list is chained. -/
theorem tokenizeGo_chain (stem : String → String) (cs : List Char) :
    ∀ (i : Nat) (tokens : List Token) (builder : Option (TokenBuilder × Bool)),
      List.Chain' SpanLe tokens →
      (∀ u ∈ tokens, u.loc.start_index + u.loc.len ≤ scanFloor builder i) →
      builderTight builder i →
      List.Chain' SpanLe (Service.tokenizeGo stem tokens builder (List.enumFrom i cs)) := by
  induction cs with
  | nil =>
    intro i tokens builder hc hb ht
    cases builder with
    | none => simpa [Service.tokenizeGo] using hc
    | some b =>
      simp only [List.enumFrom, Service.tokenizeGo]
      exact chain_append_token hc (by simpa [TokenBuilder.done, Token.new, Loc.new, scanFloor] using hb)
  | cons c cs ih =>
    intro i tokens builder hc hb ht
    simp only [List.enumFrom]
    by_cases hw : isAsciiWhitespace c
    · cases builder with
      | none =>
        simp only [Service.tokenizeGo, hw, if_true]
        exact ih (i + 1) tokens none hc
          (fun u hu => le_trans (hb u hu) (Nat.le_succ i)) trivial
      | some b =>
        simp only [Service.tokenizeGo, hw, if_true]
        refine ih (i + 1) _ none ?_ ?_ trivial
        · exact chain_append_token hc
            (by simpa [TokenBuilder.done, Token.new, Loc.new, scanFloor] using hb)
        · intro u hu
          simp only [List.mem_append, List.mem_singleton] at hu
          rcases hu with hu | rfl
          · exact le_trans (hb u hu)
              (by simp only [scanFloor, builderTight] at ht ⊢; omega)
          · simp only [TokenBuilder.done, Token.new, Loc.new, scanFloor, builderTight] at ht ⊢
            omega
    · by_cases hp : isAsciiPunct c
      · have hbranch : ∀ closed, List.Chain' SpanLe closed →
            (∀ u ∈ closed, u.loc.start_index + u.loc.len ≤ i) →
            List.Chain' SpanLe
              (Service.tokenizeGo stem
                (closed ++ [(((TokenBuilder.new i).add_symbol c)).done stem]) none
                (List.enumFrom (i + 1) cs)) := by
          intro closed hcc hbc
          refine ih (i + 1) _ none ?_ ?_ trivial
          · exact chain_append_token hcc
              (by simpa [TokenBuilder.done, TokenBuilder.add_symbol, TokenBuilder.new,
                    Token.new, Loc.new] using hbc)
          · intro u hu
            simp only [List.mem_append, List.mem_singleton] at hu
            rcases hu with hu | rfl
            · exact le_trans (hbc u hu) (Nat.le_succ i)
            · simp [TokenBuilder.done, TokenBuilder.add_symbol, TokenBuilder.new,
                Token.new, Loc.new, scanFloor]
        cases builder with
        | none =>
          simp only [Service.tokenizeGo, hw, hp, if_true, if_false]
          exact hbranch tokens hc (by simpa [scanFloor] using hb)
        | some b =>
          simp only [Service.tokenizeGo, hw, hp, if_true, if_false]
          refine hbranch (tokens ++ [b.1.done stem]) ?_ ?_
          · exact chain_append_token hc
              (by simpa [TokenBuilder.done, Token.new, Loc.new, scanFloor] using hb)
          · intro u hu
            simp only [List.mem_append, List.mem_singleton] at hu
            rcases hu with hu | rfl
            · exact le_trans (hb u hu) (by simp only [scanFloor, builderTight] at ht ⊢; omega)
            · simp only [TokenBuilder.done, Token.new, Loc.new, scanFloor, builderTight] at ht ⊢
              omega
      · cases builder with
        | none =>
          simp only [Service.tokenizeGo, hw, hp, if_false]
          refine ih (i + 1) tokens _ hc ?_ ?_
          · simpa [scanFloor, TokenBuilder.add_symbol, TokenBuilder.new] using hb
          · simp [builderTight, TokenBuilder.add_symbol, TokenBuilder.new]
        | some b =>
          by_cases hcls : b.2 = isNumericChar c
          · simp only [Service.tokenizeGo, hw, hp, if_false, hcls, if_true]
            refine ih (i + 1) tokens _ hc ?_ ?_
            · simpa [scanFloor, TokenBuilder.add_symbol] using hb
            · simp only [builderTight, TokenBuilder.add_symbol] at ht ⊢
              omega
          · simp only [Service.tokenizeGo, hw, hp, if_false, hcls, if_true]
            refine ih (i + 1) _ _ ?_ ?_ ?_
            · exact chain_append_token hc
                (by simpa [TokenBuilder.done, Token.new, Loc.new, scanFloor] using hb)
            · intro u hu
              simp only [List.mem_append, List.mem_singleton] at hu
              rcases hu with hu | rfl
              · exact le_trans (hb u hu)
                  (by simp only [scanFloor, builderTight, TokenBuilder.new,
                    TokenBuilder.add_symbol] at ht ⊢; omega)
              · simp only [TokenBuilder.done, Token.new, Loc.new, scanFloor, builderTight,
                  TokenBuilder.new, TokenBuilder.add_symbol] at ht ⊢
                omega
            · simp [builderTight, TokenBuilder.add_symbol, TokenBuilder.new]

/-- The token list produced by `Service::tokenize` is chained: each token's
span ends at or before the next token's span starts. -/
theorem tokenize_chain (svc : Service) (msg : String) :
    List.Chain' SpanLe (svc.tokenize msg) := by
  have h := tokenizeGo_chain svc.stem (msg.toList.map toLowercaseChar) 0 [] none
    (List.chain'_nil) (by simp [scanFloor]) trivial
  simpa [Service.tokenize, List.enum] using h

/-- C2: for every input string (and any stemmer and pipeline configuration),
the token sequence produced by `Service::tokenize` is ordered by
non-decreasing span start, and the spans of any two distinct tokens do not
overlap: the earlier token's start plus its length is at most the later
token's start. -/
theorem tokenize_spans_ordered_disjoint (svc : Service) (msg : String) (i j : Nat)
    (hij : i < j) (hj : j < (Service.tokenize svc msg).length) :
    ((Service.tokenize svc msg).get ⟨i, Nat.lt_trans hij hj⟩).loc.start_index ≤
        ((Service.tokenize svc msg).get ⟨j, hj⟩).loc.start_index ∧
      ((Service.tokenize svc msg).get ⟨i, Nat.lt_trans hij hj⟩).loc.start_index +
          ((Service.tokenize svc msg).get ⟨i, Nat.lt_trans hij hj⟩).loc.len ≤
        ((Service.tokenize svc msg).get ⟨j, hj⟩).loc.start_index := by
  have hch := tokenize_chain svc msg
  rw [List.chain'_iff_pairwise] at hch
  have h := List.pairwise_iff_get.mp hch ⟨i, Nat.lt_trans hij hj⟩ ⟨j, hj⟩ hij
  exact ⟨le_trans (Nat.le_add_right _ _) h, h⟩

/-- Witness for C2 on the concrete input `"ab cd"`. -/
theorem tokenize_spans_ordered_disjoint_witness :
    0 < 1 ∧ 1 < (Service.tokenize ⟨id, []⟩ "ab cd").length ∧
      (((Service.tokenize ⟨id, []⟩ "ab cd").get ⟨0, by decide⟩).loc.start_index ≤
          ((Service.tokenize ⟨id, []⟩ "ab cd").get ⟨1, by decide⟩).loc.start_index ∧
        ((Service.tokenize ⟨id, []⟩ "ab cd").get ⟨0, by decide⟩).loc.start_index +
            ((Service.tokenize ⟨id, []⟩ "ab cd").get ⟨0, by decide⟩).loc.len ≤
          ((Service.tokenize ⟨id, []⟩ "ab cd").get ⟨1, by decide⟩).loc.start_index) :=
  ⟨Nat.zero_lt_one, by decide,
    tokenize_spans_ordered_disjoint ⟨id, []⟩ "ab cd" 0 1 (by decide) (by decide)⟩

/-- Lower-casing does not move whitespace characters. -/
theorem toLowercaseChar_whitespace {c : Char} (h : isAsciiWhitespace c = true) :
    toLowercaseChar c = c := by
  simp only [isAsciiWhitespace, decide_eq_true_eq, Bool.decide_or, Bool.or_eq_true] at h
  rcases h with rfl | rfl | rfl | rfl | rfl <;> decide

/-- Scanning only whitespace characters with no open builder emits nothing. -/
theorem tokenizeGo_whitespace (stem : String → String) (cs : List Char) :
    ∀ i, (∀ c ∈ cs, isAsciiWhitespace c = true) →
      Service.tokenizeGo stem [] none (List.enumFrom i cs) = [] := by
  induction cs with
  | nil => intro i _; rfl
  | cons c cs ih =>
    intro i hws
    have hc := hws c (List.mem_cons_self c cs)
    simp only [List.enumFrom, Service.tokenizeGo, hc, if_true]
    exact ih (i + 1) (fun d hd => hws d (List.mem_cons_of_mem c hd))

/-- C9: tokenization never fails — with an empty pipeline `Service::sentence`
returns `Ok` for every input — and an input consisting only of (ASCII)
whitespace characters produces a sentence with zero tokens. -/
theorem tokenize_total_and_whitespace_empty (stem : String → String) (msg : String) :
    Service.sentence ⟨stem, []⟩ msg = .ok (Sentence.new msg (Service.tokenize ⟨stem, []⟩ msg)) ∧
      ((∀ c ∈ msg.toList, isAsciiWhitespace c = true) → Service.tokenize ⟨stem, []⟩ msg = []) := by
  refine ⟨rfl, fun hws => ?_⟩
  have hmap : msg.toList.map toLowercaseChar = msg.toList := by
    rw [List.map_congr_left (fun c hc => toLowercaseChar_whitespace (hws c hc))]
    exact List.map_id msg.toList
  show Service.tokenizeGo stem [] none ((msg.toList.map toLowercaseChar).enum) = []
  rw [hmap]
  exact tokenizeGo_whitespace stem msg.toList 0 hws

/-- Witness for C9 on the whitespace-only input. -/
theorem tokenize_total_and_whitespace_empty_witness :
    (∀ c ∈ ("  \t ").toList, isAsciiWhitespace c = true) ∧
      Service.tokenize ⟨id, []⟩ "  \t " = [] :=
  ⟨by decide, (tokenize_total_and_whitespace_empty id "  \t ").2 (by decide)⟩

/-- If the first `k` enrichers succeed and the `k`-th fails, the whole
enricher loop returns that first failure. -/
theorem runEnrichers_first_fail :
    ∀ (pipe : List (Sentence → Except Err Sentence)) (s sk : Sentence) (k : Nat)
      (hk : k < pipe.length),
      runEnrichers (pipe.take k) s = .ok sk →
      pipe.get ⟨k, hk⟩ sk = .error e →
      runEnrichers pipe s = .error e := by
  intro pipe
  induction pipe with
  | nil => intro s sk k hk; exact absurd hk (by simp)
  | cons f rest ih =>
    intro s sk k hk hpre hfail
    cases k with
    | zero =>
      simp only [List.take_zero, runEnrichers, Except.ok.injEq] at hpre
      subst hpre
      simp only [List.get] at hfail
      simp [runEnrichers, hfail]
    | succ k =>
      simp only [List.take_succ_cons, runEnrichers] at hpre ⊢
      cases hf : f s with
      | error err => rw [hf] at hpre; exact absurd hpre (by simp)
      | ok s' =>
        rw [hf] at hpre
        simp only [List.length_cons, Nat.succ_lt_succ_iff] at hk
        exact ih s' sk k hk hpre hfail

/-- C1: if, during `Service::sentence`, the first `k` registered enrichers
succeed on the tokenized sentence and the `k`-th fails with error `e`, then
`sentence` returns exactly that first failure and no `Sentence` — the caller
observes either a fully enriched sentence (`runEnrichers` applying every
stage in registration order) or an error, never a partially annotated
sentence. -/
theorem sentence_first_failure_aborts (svc : Service) (msg : String) (sk : Sentence)
    (k : Nat) (e : Err) (hk : k < svc.pipeline.length)
    (hpre : runEnrichers (svc.pipeline.take k) (Sentence.new msg (svc.tokenize msg)) = .ok sk)
    (hfail : svc.pipeline.get ⟨k, hk⟩ sk = .error e) :
    Service.sentence svc msg = .error e :=
  runEnrichers_first_fail svc.pipeline (Sentence.new msg (svc.tokenize msg)) sk k hk hpre hfail

/-- Witness for C1: a two-stage pipeline whose second stage fails. -/
theorem sentence_first_failure_aborts_witness :
    1 < (Service.mk id [fun s => .ok s, fun _ => .error (.msg "boom")]).pipeline.length ∧
      Service.sentence ⟨id, [fun s => .ok s, fun _ => .error (.msg "boom")]⟩ "a" =
        .error (.msg "boom") :=
  ⟨by decide,
    sentence_first_failure_aborts ⟨id, [fun s => .ok s, fun _ => .error (.msg "boom")]⟩ "a"
      (Sentence.new "a" (Service.tokenize ⟨id, [fun s => .ok s, fun _ => .error (.msg "boom")]⟩ "a"))
      1 (.msg "boom") (by decide) rfl rfl⟩

/-- C8 evaluation: the `Meta::as_usize` / `as_i64` / `as_u64` accessors,
applied to a value of a different variant, `panic!` (an unconditional abort)
instead of returning a typed kind-mismatch error. -/
theorem meta_accessor_wrong_tag_panics :
    Meta.as_usize (Meta.Bool true) = PanicOr.panic "Expected usize value." ∧
      Meta.as_i64 (Meta.Bool true) = PanicOr.panic "Expected i64 value." ∧
      Meta.as_u64 (Meta.Bool true) = PanicOr.panic "Expected u64 value." :=
  ⟨rfl, rfl, rfl⟩

/-- C6: on a `LocalDictionary` whose in-memory set is uniquely owned, the
first `add` of an absent word reports `true` (newly added) and forwards the
word to the backing inner dictionary when one is present; an `add` of an
already-present word reports `false`, forwards nothing and leaves the
dictionary (set and inner store) unchanged. -/
theorem localDictionary_add_idempotent {σ : Type}
    (innerAdd : σ → String → Except Err (Bool × σ)) (d : LocalDictionary σ) (w : String)
    (hshared : d.dictionaryShared = false)
    (hnew : d.dictionary.contains w = false) :
    (d.inner = none →
        LocalDictionary.add innerAdd d w = .ok (true, ⟨w :: d.dictionary, false, none⟩)) ∧
      (∀ i b i', d.inner = some i → innerAdd i w = .ok (b, i') →
        LocalDictionary.add innerAdd d w = .ok (true, ⟨w :: d.dictionary, false, some i'⟩)) ∧
      (∀ d₁ : LocalDictionary σ, d₁.dictionaryShared = false →
        d₁.dictionary.contains w = true →
        LocalDictionary.add innerAdd d₁ w = .ok (false, d₁)) := by
  have hnotmem : ¬ w ∈ d.dictionary := by simpa using hnew
  refine ⟨fun hinner => ?_, fun i b i' hinner hiadd => ?_, fun d₁ hsh₁ hmem₁ => ?_⟩
  · simp [LocalDictionary.add, hshared, hnotmem, hinner]
  · simp [LocalDictionary.add, hshared, hnotmem, hinner, hiadd]
  · have hmem : w ∈ d₁.dictionary := by simpa using hmem₁
    simp [LocalDictionary.add, hsh₁, hmem]

/-- Witness for C6: an instrumented backing store (a list recording forwarded
words); the first add forwards `"w"`, the second reports `false` and forwards
nothing. -/
theorem localDictionary_add_idempotent_witness :
    LocalDictionary.add (fun (l : List String) w => .ok (true, l ++ [w]))
        ⟨[], false, some []⟩ "w" = .ok (true, ⟨["w"], false, some ["w"]⟩) ∧
      LocalDictionary.add (fun (l : List String) w => .ok (true, l ++ [w]))
        ⟨["w"], false, some ["w"]⟩ "w" = .ok (false, ⟨["w"], false, some ["w"]⟩) := by
  have h := localDictionary_add_idempotent (fun (l : List String) w => .ok (true, l ++ [w]))
    ⟨[], false, some []⟩ "w" rfl (by decide)
  exact ⟨h.2.1 [] true ["w"] rfl rfl, h.2.2 ⟨["w"], false, some ["w"]⟩ rfl (by decide)⟩

/-- If the first dictionary hit of the scan is at index `k` and aborting is
on, the stop-word loop fails there with the reconstructed substring; the
sentence is never modified before the failure. -/
theorem stopword_enrichGo_error_first (contains : String → Bool) (s : Sentence) (k : Nat)
    (hk : k < s.tokens.length)
    (hmem : contains ((s.tokens.getD k default).val) = true) :
    ∀ n a, a + n = s.tokens.length → a ≤ k →
      (∀ j, a ≤ j → j < k → contains ((s.tokens.getD j default).val) = false) →
      StopWordEnricher.enrichGo contains true s (List.range' a n) =
        .error (.stopWord (s.by_loc (s.tokens.getD k default).loc)) := by
  intro n
  induction n with
  | zero => intro a hlen hak _; omega
  | succ n ih =>
    intro a hlen hak hfirst
    rcases Nat.eq_or_lt_of_le hak with rfl | hlt
    · simp only [List.range', StopWordEnricher.enrichGo, hmem, if_true]
    · have hskip := hfirst a (le_refl a) hlt
      simp only [List.range', StopWordEnricher.enrichGo, hskip, Bool.false_eq_true, if_false]
      exact ih (a + 1) (by omega) hlt (fun j hj₁ hj₂ => hfirst j (by omega) hj₂)

/-- A single-stage pipeline propagates its stage's failure. -/
theorem runEnrichers_single_error {fn : Sentence → Except Err Sentence} {base : Sentence}
    {e : Err} (h : fn base = .error e) : runEnrichers [fn] base = .error e := by
  simp [runEnrichers, h]

/-- C5: with `abort_on_match` set, `Service::sentence` over a
`StopWordEnricher` fails at the first token whose value the dictionary
contains, with a stop-word error carrying exactly the substring of the raw
text reconstructed from that token's span. -/
theorem stopword_abort_on_first_match {σ : Type} (stem : String → String)
    (d : LocalDictionary σ) (msg : String) (k : Nat)
    (hk : k < (Service.tokenize ⟨stem, [StopWordEnricher.enrichFn d.contains true]⟩ msg).length)
    (hmem : d.contains (((Service.tokenize ⟨stem, [StopWordEnricher.enrichFn d.contains true]⟩
      msg).getD k default).val) = true)
    (hfirst : ∀ j < k, d.contains (((Service.tokenize
      ⟨stem, [StopWordEnricher.enrichFn d.contains true]⟩ msg).getD j default).val) = false) :
    Service.sentence ⟨stem, [StopWordEnricher.enrichFn d.contains true]⟩ msg =
      .error (.stopWord ((Sentence.new msg (Service.tokenize
          ⟨stem, [StopWordEnricher.enrichFn d.contains true]⟩ msg)).by_loc
        (((Service.tokenize ⟨stem, [StopWordEnricher.enrichFn d.contains true]⟩
          msg).getD k default).loc))) := by
  have herr := stopword_enrichGo_error_first d.contains
    (Sentence.new msg (Service.tokenize ⟨stem, [StopWordEnricher.enrichFn d.contains true]⟩ msg))
    k hk hmem
    (Sentence.new msg (Service.tokenize
      ⟨stem, [StopWordEnricher.enrichFn d.contains true]⟩ msg)).tokens.length
    0 (by omega) (Nat.zero_le k) (fun j _ hj => hfirst j hj)
  rw [← List.range_eq_range'] at herr
  exact runEnrichers_single_error herr

/-- Looking up the key just inserted by `metaInsert` yields the new value. -/
theorem lookup_metaInsert_self (key : String) (m : Meta) (l : List (String × Meta)) :
    (metaInsert key m l).lookup key = some m := by
  induction l with
  | nil => simp [metaInsert, List.lookup]
  | cons p rest ih =>
    obtain ⟨k, v⟩ := p
    by_cases hk : k = key
    · subst hk; simp [metaInsert, List.lookup]
    · have hbeq : (key == k) = false := beq_eq_false_iff_ne.mpr (Ne.symm hk)
      simp [metaInsert, hk, List.lookup, hbeq, ih]

/-- Looking up a different key after `metaInsert` is unchanged. -/
theorem lookup_metaInsert_ne (key k' : String) (m : Meta) (l : List (String × Meta))
    (h : k' ≠ key) :
    (metaInsert key m l).lookup k' = l.lookup k' := by
  have hbeq : (k' == key) = false := beq_eq_false_iff_ne.mpr h
  induction l with
  | nil => simp [metaInsert, List.lookup, hbeq]
  | cons p rest ih =>
    obtain ⟨k, v⟩ := p
    by_cases hk : k = key
    · subst hk
      simp [metaInsert, List.lookup, hbeq]
    · simp only [metaInsert, if_neg hk, List.lookup]
      cases hkk : (k' == k) with
      | true => rfl
      | false => exact ih

/-- Reading the key just written by `add_meta`. -/
theorem get_meta_add_meta_self (t : Token) (key : String) (m : Meta) :
    (t.add_meta key m).get_meta key = some m :=
  lookup_metaInsert_self key m t.meta

/-- Reading a different key after `add_meta` is unchanged. -/
theorem get_meta_add_meta_ne (t : Token) (key k' : String) (m : Meta) (h : k' ≠ key) :
    (t.add_meta key m).get_meta k' = t.get_meta k' :=
  lookup_metaInsert_ne key k' m t.meta h

/-- `add_meta` does not change a token's value. -/
theorem add_meta_val (t : Token) (key : String) (m : Meta) :
    (t.add_meta key m).val = t.val := rfl

/-- `add_meta` does not change a token's location. -/
theorem add_meta_loc (t : Token) (key : String) (m : Meta) :
    (t.add_meta key m).loc = t.loc := rfl

/-- A token-level observation that agrees on the replaced element is
preserved by `List.set` under `getD`. -/
theorem observe_set_getD {α : Type} (f : Token → α) (l : List Token) (i : Nat)
    (t : Token) (j : Nat) (h : f t = f (l.getD i default)) :
    f ((l.set i t).getD j default) = f (l.getD j default) := by
  rw [List.getD_eq_getElem?_getD, List.getD_eq_getElem?_getD, List.getElem?_set]
  by_cases hij : i = j
  · by_cases hlen : i < l.length
    · rw [if_pos hij, if_pos hlen]
      subst hij
      rw [Option.getD_some, h, List.getD_eq_getElem?_getD]
    · rw [if_pos hij, if_neg hlen]
      subst hij
      rw [List.getElem?_eq_none (le_of_not_lt hlen)]
  · rw [if_neg hij]

/-- Reading back the element written by `List.set` (in-range case). -/
theorem getD_set_self {l : List Token} {i : Nat} (hlen : i < l.length) (t : Token) :
    ((l.set i t).getD i default) = t := by
  rw [List.getD_eq_getElem?_getD, List.getElem?_set]
  simp [hlen]

/-- A classification decision can only be `some` at an in-range index (the
out-of-range default token's value `""` does not parse). -/
theorem numberAt_isSome_lt {s : Sentence} {i : Nat}
    (h : (NumberEnricher.numberAt s i).isSome = true) : i < s.tokens.length := by
  by_contra hge
  rw [not_lt] at hge
  have hdef : s.tokens.getD i default = default := by
    rw [List.getD_eq_getElem?_getD, List.getElem?_eq_none hge]; rfl
  unfold NumberEnricher.numberAt at h
  rw [hdef] at h
  simp [parseU64, default, Token.new] at h

/-- A signed classification requires a preceding token. -/
theorem numberAt_signed_pos {s : Sentence} {i : Nat} {v : Int}
    (h : NumberEnricher.numberAt s i = some (.Signed v)) : 0 < i := by
  by_contra h0
  rw [not_lt, Nat.le_zero] at h0
  subst h0
  unfold NumberEnricher.numberAt at h
  cases hp : parseU64 ((s.tokens.getD 0 default).val) with
  | none => rw [hp] at h; simp at h
  | some val => rw [hp] at h; simp at h

/-- The classification only reads token values, so it is invariant under any
transformation that preserves them. -/
theorem numberAt_congr (s s' : Sentence) (j : Nat)
    (hval : ∀ k, ((s'.tokens.getD k default).val) = ((s.tokens.getD k default).val)) :
    NumberEnricher.numberAt s' j = NumberEnricher.numberAt s j := by
  unfold NumberEnricher.numberAt
  rw [hval j, hval (j - 1)]

/-- `enrichStep` does not change the raw text. -/
theorem enrichStep_raw (s : Sentence) (i : Nat) :
    (NumberEnricher.enrichStep s i).raw = s.raw := by
  cases h : NumberEnricher.numberAt s i with
  | none => simp [NumberEnricher.enrichStep, h]
  | some n => cases n <;> simp [NumberEnricher.enrichStep, h]

/-- `enrichStep` does not change the number of tokens. -/
theorem enrichStep_length (s : Sentence) (i : Nat) :
    (NumberEnricher.enrichStep s i).tokens.length = s.tokens.length := by
  cases h : NumberEnricher.numberAt s i with
  | none => simp [NumberEnricher.enrichStep, h]
  | some n => cases n <;> simp [NumberEnricher.enrichStep, h, List.length_set]

/-- `enrichStep` does not change any token's value. -/
theorem enrichStep_val (s : Sentence) (i j : Nat) :
    ((NumberEnricher.enrichStep s i).tokens.getD j default).val =
      ((s.tokens.getD j default).val) := by
  cases h : NumberEnricher.numberAt s i with
  | none => simp [NumberEnricher.enrichStep, h]
  | some n =>
    cases n with
    | Signed v =>
      simp only [NumberEnricher.enrichStep, h]
      have step1 := observe_set_getD Token.val
        (s.tokens.set i (((s.tokens.getD i default).add_meta VALUE
          (Meta.I64 v)).add_meta SIGN_INDEX (Meta.Usize (i - 1))))
        (i - 1)
        (((s.tokens.set i (((s.tokens.getD i default).add_meta VALUE
          (Meta.I64 v)).add_meta SIGN_INDEX (Meta.Usize (i - 1)))).getD
            (i - 1) default).add_meta NUMBER_INDEX (Meta.Usize i))
        j rfl
      have step2 := observe_set_getD Token.val s.tokens i
        (((s.tokens.getD i default).add_meta VALUE (Meta.I64 v)).add_meta
          SIGN_INDEX (Meta.Usize (i - 1))) j rfl
      exact step1.trans step2
    | Unsigned m =>
      simp only [NumberEnricher.enrichStep, h]
      exact observe_set_getD Token.val _ i _ j rfl

/-- `enrichStep` does not change any token's location. -/
theorem enrichStep_loc (s : Sentence) (i j : Nat) :
    ((NumberEnricher.enrichStep s i).tokens.getD j default).loc =
      ((s.tokens.getD j default).loc) := by
  cases h : NumberEnricher.numberAt s i with
  | none => simp [NumberEnricher.enrichStep, h]
  | some n =>
    cases n with
    | Signed v =>
      simp only [NumberEnricher.enrichStep, h]
      have step1 := observe_set_getD Token.loc
        (s.tokens.set i (((s.tokens.getD i default).add_meta VALUE
          (Meta.I64 v)).add_meta SIGN_INDEX (Meta.Usize (i - 1))))
        (i - 1)
        (((s.tokens.set i (((s.tokens.getD i default).add_meta VALUE
          (Meta.I64 v)).add_meta SIGN_INDEX (Meta.Usize (i - 1)))).getD
            (i - 1) default).add_meta NUMBER_INDEX (Meta.Usize i))
        j rfl
      have step2 := observe_set_getD Token.loc s.tokens i
        (((s.tokens.getD i default).add_meta VALUE (Meta.I64 v)).add_meta
          SIGN_INDEX (Meta.Usize (i - 1))) j rfl
      exact step1.trans step2
    | Unsigned m =>
      simp only [NumberEnricher.enrichStep, h]
      exact observe_set_getD Token.loc _ i _ j rfl

/-- Reading at a different index than the one written by `List.set`. -/
theorem getD_set_ne {l : List Token} {i j : Nat} (h : i ≠ j) (t : Token) :
    (l.set i t).getD j default = l.getD j default := by
  rw [List.getD_eq_getElem?_getD, List.getD_eq_getElem?_getD, List.getElem?_set_ne h]

/-- Whether a classification is a signed number. -/
def isSignedOpt : Option Number → Bool
  | some (.Signed _) => true
  | _ => false

/-- Effect of one enrich iteration on the `number.number` metadata: written at
the visited index according to the classification, untouched elsewhere. -/
theorem enrichStep_get_meta_VALUE (s : Sentence) (i j : Nat) :
    ((NumberEnricher.enrichStep s i).tokens.getD j default).get_meta VALUE =
      if j = i then
        match NumberEnricher.numberAt s j with
        | some (.Signed v) => some (Meta.I64 v)
        | some (.Unsigned m) => some (Meta.U64 m)
        | none => (s.tokens.getD j default).get_meta VALUE
      else (s.tokens.getD j default).get_meta VALUE := by
  cases h : NumberEnricher.numberAt s i with
  | none =>
    by_cases hj : j = i
    · subst hj; simp [NumberEnricher.enrichStep, h]
    · simp [NumberEnricher.enrichStep, h, hj]
  | some n =>
    have hlen : i < s.tokens.length := numberAt_isSome_lt (by rw [h]; rfl)
    cases n with
    | Signed v =>
      have hpos : 0 < i := numberAt_signed_pos h
      simp only [NumberEnricher.enrichStep, h]
      by_cases hj : j = i
      · subst hj
        rw [getD_set_ne (by omega), getD_set_self hlen, if_pos rfl, h,
          get_meta_add_meta_ne _ _ _ _ (by decide), get_meta_add_meta_self]
      · rw [if_neg hj]
        by_cases hj1 : j = i - 1
        · subst hj1
          rw [getD_set_self (by rw [List.length_set]; omega),
            get_meta_add_meta_ne _ _ _ _ (by decide), getD_set_ne (by omega)]
        · rw [getD_set_ne (fun hh => hj1 hh.symm), getD_set_ne (fun hh => hj hh.symm)]
    | Unsigned m =>
      simp only [NumberEnricher.enrichStep, h]
      by_cases hj : j = i
      · subst hj
        rw [getD_set_self hlen, if_pos rfl, h, get_meta_add_meta_self]
      · rw [getD_set_ne (fun hh => hj hh.symm), if_neg hj]

/-- Effect of one enrich iteration on the `number.sign_index` metadata. -/
theorem enrichStep_get_meta_SIGN (s : Sentence) (i j : Nat) :
    ((NumberEnricher.enrichStep s i).tokens.getD j default).get_meta SIGN_INDEX =
      if j = i ∧ isSignedOpt (NumberEnricher.numberAt s j) = true then
        some (Meta.Usize (j - 1))
      else (s.tokens.getD j default).get_meta SIGN_INDEX := by
  cases h : NumberEnricher.numberAt s i with
  | none =>
    by_cases hj : j = i
    · subst hj; simp [NumberEnricher.enrichStep, h, isSignedOpt]
    · simp [NumberEnricher.enrichStep, h, hj]
  | some n =>
    have hlen : i < s.tokens.length := numberAt_isSome_lt (by rw [h]; rfl)
    cases n with
    | Signed v =>
      have hpos : 0 < i := numberAt_signed_pos h
      simp only [NumberEnricher.enrichStep, h]
      by_cases hj : j = i
      · subst hj
        rw [getD_set_ne (by omega), getD_set_self hlen, if_pos ⟨rfl, by rw [h]; rfl⟩,
          get_meta_add_meta_self]
      · rw [if_neg (fun hh => hj hh.1)]
        by_cases hj1 : j = i - 1
        · subst hj1
          rw [getD_set_self (by rw [List.length_set]; omega),
            get_meta_add_meta_ne _ _ _ _ (by decide), getD_set_ne (by omega)]
        · rw [getD_set_ne (fun hh => hj1 hh.symm), getD_set_ne (fun hh => hj hh.symm)]
    | Unsigned m =>
      simp only [NumberEnricher.enrichStep, h]
      by_cases hj : j = i
      · subst hj
        rw [getD_set_self hlen, get_meta_add_meta_ne _ _ _ _ (by decide),
          if_neg (by rw [h]; simp [isSignedOpt])]
      · rw [getD_set_ne (fun hh => hj hh.symm), if_neg (fun hh => hj hh.1)]

/-- Effect of one enrich iteration on the `number.number_index` metadata: a
signed number at the visited index back-references it from the preceding sign
token. -/
theorem enrichStep_get_meta_NUM (s : Sentence) (i j : Nat) :
    ((NumberEnricher.enrichStep s i).tokens.getD j default).get_meta NUMBER_INDEX =
      if j + 1 = i ∧ isSignedOpt (NumberEnricher.numberAt s i) = true then
        some (Meta.Usize i)
      else (s.tokens.getD j default).get_meta NUMBER_INDEX := by
  cases h : NumberEnricher.numberAt s i with
  | none => simp [NumberEnricher.enrichStep, h, isSignedOpt]
  | some n =>
    have hlen : i < s.tokens.length := numberAt_isSome_lt (by rw [h]; rfl)
    cases n with
    | Signed v =>
      have hpos : 0 < i := numberAt_signed_pos h
      simp only [NumberEnricher.enrichStep, h]
      by_cases hj1 : j = i - 1
      · subst hj1
        rw [getD_set_self (by rw [List.length_set]; omega), get_meta_add_meta_self,
          if_pos ⟨by omega, rfl⟩]
      · rw [getD_set_ne (fun hh => hj1 hh.symm), if_neg (fun hh => hj1 (by omega))]
        by_cases hj : j = i
        · subst hj
          rw [getD_set_self hlen, get_meta_add_meta_ne _ _ _ _ (by decide),
            get_meta_add_meta_ne _ _ _ _ (by decide)]
        · rw [getD_set_ne (fun hh => hj hh.symm)]
    | Unsigned m =>
      simp only [NumberEnricher.enrichStep, h]
      rw [if_neg (fun hh => by
        have h2 := hh.2
        simp [isSignedOpt] at h2)]
      by_cases hj : j = i
      · subst hj
        rw [getD_set_self hlen, get_meta_add_meta_ne _ _ _ _ (by decide)]
      · rw [getD_set_ne (fun hh => hj hh.symm)]

/-- Values are preserved across the whole enrich fold. -/
theorem enrichFold_val (idxs : List Nat) :
    ∀ (s : Sentence) (j : Nat),
      ((idxs.foldl NumberEnricher.enrichStep s).tokens.getD j default).val =
        (s.tokens.getD j default).val := by
  induction idxs with
  | nil => intro s j; rfl
  | cons i rest ih =>
    intro s j
    rw [List.foldl_cons, ih (NumberEnricher.enrichStep s i) j, enrichStep_val]

/-- Locations are preserved across the whole enrich fold. -/
theorem enrichFold_loc (idxs : List Nat) :
    ∀ (s : Sentence) (j : Nat),
      ((idxs.foldl NumberEnricher.enrichStep s).tokens.getD j default).loc =
        (s.tokens.getD j default).loc := by
  induction idxs with
  | nil => intro s j; rfl
  | cons i rest ih =>
    intro s j
    rw [List.foldl_cons, ih (NumberEnricher.enrichStep s i) j, enrichStep_loc]

/-- The raw text is preserved across the whole enrich fold. -/
theorem enrichFold_raw (idxs : List Nat) :
    ∀ (s : Sentence), (idxs.foldl NumberEnricher.enrichStep s).raw = s.raw := by
  induction idxs with
  | nil => intro s; rfl
  | cons i rest ih =>
    intro s
    rw [List.foldl_cons, ih (NumberEnricher.enrichStep s i), enrichStep_raw]

/-- The number of tokens is preserved across the whole enrich fold. -/
theorem enrichFold_length (idxs : List Nat) :
    ∀ (s : Sentence), (idxs.foldl NumberEnricher.enrichStep s).tokens.length =
      s.tokens.length := by
  induction idxs with
  | nil => intro s; rfl
  | cons i rest ih =>
    intro s
    rw [List.foldl_cons, ih (NumberEnricher.enrichStep s i), enrichStep_length]

/-- The `number.number` metadata after the whole enrich fold: written exactly
at the visited indices that classify as numbers. -/
theorem enrichFold_get_meta_VALUE (idxs : List Nat) :
    ∀ (s : Sentence) (j : Nat),
      ((idxs.foldl NumberEnricher.enrichStep s).tokens.getD j default).get_meta VALUE =
        if j ∈ idxs then
          match NumberEnricher.numberAt s j with
          | some (.Signed v) => some (Meta.I64 v)
          | some (.Unsigned m) => some (Meta.U64 m)
          | none => (s.tokens.getD j default).get_meta VALUE
        else (s.tokens.getD j default).get_meta VALUE := by
  induction idxs with
  | nil => intro s j; simp
  | cons i rest ih =>
    intro s j
    rw [List.foldl_cons, ih (NumberEnricher.enrichStep s i) j,
      numberAt_congr s (NumberEnricher.enrichStep s i) j (fun k => enrichStep_val s i k),
      enrichStep_get_meta_VALUE]
    by_cases hjr : j ∈ rest
    · rw [if_pos hjr, if_pos (List.mem_cons_of_mem i hjr)]
      cases hn : NumberEnricher.numberAt s j with
      | none =>
        by_cases hj : j = i
        · rw [if_pos hj]
        · rw [if_neg hj]
      | some n => cases n <;> rfl
    · rw [if_neg hjr]
      by_cases hj : j = i
      · rw [if_pos hj, if_pos (by rw [hj]; exact List.mem_cons_self i rest)]
      · rw [if_neg hj, if_neg (by simp [List.mem_cons, hj, hjr])]

/-- The `number.sign_index` metadata after the whole enrich fold: written
exactly at visited indices that classify as signed numbers, pointing at the
preceding sign token. -/
theorem enrichFold_get_meta_SIGN (idxs : List Nat) :
    ∀ (s : Sentence) (j : Nat),
      ((idxs.foldl NumberEnricher.enrichStep s).tokens.getD j default).get_meta SIGN_INDEX =
        if j ∈ idxs ∧ isSignedOpt (NumberEnricher.numberAt s j) = true then
          some (Meta.Usize (j - 1))
        else (s.tokens.getD j default).get_meta SIGN_INDEX := by
  induction idxs with
  | nil => intro s j; simp
  | cons i rest ih =>
    intro s j
    rw [List.foldl_cons, ih (NumberEnricher.enrichStep s i) j,
      numberAt_congr s (NumberEnricher.enrichStep s i) j (fun k => enrichStep_val s i k),
      enrichStep_get_meta_SIGN]
    by_cases hs : isSignedOpt (NumberEnricher.numberAt s j) = true
    · by_cases hjr : j ∈ rest
      · rw [if_pos ⟨hjr, hs⟩, if_pos ⟨List.mem_cons_of_mem i hjr, hs⟩]
      · rw [if_neg (fun hh => hjr hh.1)]
        by_cases hj : j = i
        · rw [if_pos ⟨hj, hs⟩, if_pos ⟨by rw [hj]; exact List.mem_cons_self i rest, hs⟩]
        · rw [if_neg (fun hh => hj hh.1), if_neg (fun hh => by
            rcases List.mem_cons.mp hh.1 with hEq | hMem
            · exact hj hEq
            · exact hjr hMem)]
    · rw [if_neg (fun hh => hs hh.2), if_neg (fun hh => hs hh.2), if_neg (fun hh => hs hh.2)]

/-- The `number.number_index` metadata after the whole enrich fold: a sign
token written exactly when the next index was visited and classifies as a
signed number. -/
theorem enrichFold_get_meta_NUM (idxs : List Nat) :
    ∀ (s : Sentence) (j : Nat),
      ((idxs.foldl NumberEnricher.enrichStep s).tokens.getD j default).get_meta NUMBER_INDEX =
        if (j + 1) ∈ idxs ∧ isSignedOpt (NumberEnricher.numberAt s (j + 1)) = true then
          some (Meta.Usize (j + 1))
        else (s.tokens.getD j default).get_meta NUMBER_INDEX := by
  induction idxs with
  | nil => intro s j; simp
  | cons i rest ih =>
    intro s j
    rw [List.foldl_cons, ih (NumberEnricher.enrichStep s i) j,
      numberAt_congr s (NumberEnricher.enrichStep s i) (j + 1) (fun k => enrichStep_val s i k),
      enrichStep_get_meta_NUM]
    by_cases hji : j + 1 = i
    · subst hji
      by_cases hs : isSignedOpt (NumberEnricher.numberAt s (j + 1)) = true
      · by_cases hjr : (j + 1) ∈ rest
        · rw [if_pos (show (j + 1) ∈ rest ∧
              isSignedOpt (NumberEnricher.numberAt s (j + 1)) = true from ⟨hjr, hs⟩),
            if_pos (show (j + 1) ∈ (j + 1) :: rest ∧
              isSignedOpt (NumberEnricher.numberAt s (j + 1)) = true from
                ⟨List.mem_cons_of_mem _ hjr, hs⟩)]
        · rw [if_neg (show ¬((j + 1) ∈ rest ∧
              isSignedOpt (NumberEnricher.numberAt s (j + 1)) = true) from fun hh => hjr hh.1),
            if_pos (show j + 1 = j + 1 ∧
              isSignedOpt (NumberEnricher.numberAt s (j + 1)) = true from ⟨rfl, hs⟩),
            if_pos (show (j + 1) ∈ (j + 1) :: rest ∧
              isSignedOpt (NumberEnricher.numberAt s (j + 1)) = true from
                ⟨List.mem_cons_self _ rest, hs⟩)]
      · rw [if_neg (show ¬((j + 1) ∈ rest ∧
            isSignedOpt (NumberEnricher.numberAt s (j + 1)) = true) from fun hh => hs hh.2),
          if_neg (show ¬(j + 1 = j + 1 ∧
            isSignedOpt (NumberEnricher.numberAt s (j + 1)) = true) from fun hh => hs hh.2),
          if_neg (show ¬((j + 1) ∈ (j + 1) :: rest ∧
            isSignedOpt (NumberEnricher.numberAt s (j + 1)) = true) from fun hh => hs hh.2)]
    · rw [if_neg (show ¬(j + 1 = i ∧
        isSignedOpt (NumberEnricher.numberAt s i) = true) from fun hh => hji hh.1)]
      by_cases hs : isSignedOpt (NumberEnricher.numberAt s (j + 1)) = true
      · by_cases hjr : (j + 1) ∈ rest
        · rw [if_pos (show (j + 1) ∈ rest ∧
              isSignedOpt (NumberEnricher.numberAt s (j + 1)) = true from ⟨hjr, hs⟩),
            if_pos (show (j + 1) ∈ i :: rest ∧
              isSignedOpt (NumberEnricher.numberAt s (j + 1)) = true from
                ⟨List.mem_cons_of_mem _ hjr, hs⟩)]
        · rw [if_neg (show ¬((j + 1) ∈ rest ∧
              isSignedOpt (NumberEnricher.numberAt s (j + 1)) = true) from fun hh => hjr hh.1),
            if_neg (show ¬((j + 1) ∈ i :: rest ∧
              isSignedOpt (NumberEnricher.numberAt s (j + 1)) = true) from fun hh => by
                rcases List.mem_cons.mp hh.1 with hEq | hMem
                · exact hji hEq
                · exact hjr hMem)]
      · rw [if_neg (show ¬((j + 1) ∈ rest ∧
            isSignedOpt (NumberEnricher.numberAt s (j + 1)) = true) from fun hh => hs hh.2),
          if_neg (show ¬((j + 1) ∈ i :: rest ∧
            isSignedOpt (NumberEnricher.numberAt s (j + 1)) = true) from fun hh => hs hh.2)]

/-- For magnitudes below `2^63`, the source's `(val as i64) * -1` is exact
negation. -/
theorem wrapNeg_small {m : Nat} (h : m < 2 ^ 63) :
    wrapI64 (u64AsI64 m * -1) = -(m : Int) := by
  unfold wrapI64 u64AsI64
  rw [if_pos h]
  have hm : (m : Int) < 2 ^ 63 := by exact_mod_cast h
  omega

/-- The classification at an index whose token parses as `m`, in terms of the
preceding-token marker test (for small magnitudes the signed value is exactly
`-m`). -/
theorem numberAt_of_parse {s : Sentence} {j m : Nat}
    (hm : parseU64 ((s.tokens.getD j default).val) = some m)
    (hsmall : m < 2 ^ 63) :
    NumberEnricher.numberAt s j =
      if 0 < j ∧ ((s.tokens.getD (j - 1) default).val = "-" ∨
          (s.tokens.getD (j - 1) default).val = "минус") then
        some (.Signed (-(m : Int)))
      else some (.Unsigned m) := by
  by_cases h0 : 0 < j
  · by_cases hmark : (s.tokens.getD (j - 1) default).val = "-" ∨
        (s.tokens.getD (j - 1) default).val = "минус"
    · simp only [NumberEnricher.numberAt, hm]
      rw [if_pos h0, if_pos hmark, if_pos ⟨h0, hmark⟩, wrapNeg_small hsmall]
    · simp only [NumberEnricher.numberAt, hm]
      rw [if_pos h0, if_neg hmark, if_neg (fun hh => hmark hh.2)]
  · simp only [NumberEnricher.numberAt, hm]
    rw [if_neg h0, if_neg (fun hh => h0 hh.1)]

/-- C4 (amended with the magnitude bound `m < 2^63`): a token parsing as a
non-negative integer `m` whose immediate left neighbour is `-` or `минус` is
recorded signed with value exactly `-m` together with the sign token's index,
and the sign token receives the number token's index; with no such neighbour
the token is recorded unsigned with value `m`. -/
theorem number_enrich_records (s : Sentence) (j m : Nat)
    (hj : j < s.tokens.length)
    (hm : parseU64 ((s.tokens.getD j default).val) = some m)
    (hsmall : m < 2 ^ 63) :
    (((NumberEnricher.enrich s).tokens.getD j default).get_meta VALUE =
        if 0 < j ∧ ((s.tokens.getD (j - 1) default).val = "-" ∨
            (s.tokens.getD (j - 1) default).val = "минус") then
          some (Meta.I64 (-(m : Int)))
        else some (Meta.U64 m)) ∧
      (((NumberEnricher.enrich s).tokens.getD j default).get_meta SIGN_INDEX =
        if 0 < j ∧ ((s.tokens.getD (j - 1) default).val = "-" ∨
            (s.tokens.getD (j - 1) default).val = "минус") then
          some (Meta.Usize (j - 1))
        else (s.tokens.getD j default).get_meta SIGN_INDEX) ∧
      ((0 < j ∧ ((s.tokens.getD (j - 1) default).val = "-" ∨
          (s.tokens.getD (j - 1) default).val = "минус")) →
        ((NumberEnricher.enrich s).tokens.getD (j - 1) default).get_meta NUMBER_INDEX =
          some (Meta.Usize j)) := by
  have hnum := numberAt_of_parse hm hsmall
  have hmemr : j ∈ List.range s.tokens.length := List.mem_range.mpr hj
  refine ⟨?_, ?_, ?_⟩
  · show ((((List.range s.tokens.length).foldl NumberEnricher.enrichStep
      s).tokens.getD j default).get_meta VALUE) = _
    rw [enrichFold_get_meta_VALUE, if_pos hmemr, hnum]
    by_cases hcond : 0 < j ∧ ((s.tokens.getD (j - 1) default).val = "-" ∨
        (s.tokens.getD (j - 1) default).val = "минус")
    · rw [if_pos hcond, if_pos hcond]
    · rw [if_neg hcond, if_neg hcond]
  · show ((((List.range s.tokens.length).foldl NumberEnricher.enrichStep
      s).tokens.getD j default).get_meta SIGN_INDEX) = _
    rw [enrichFold_get_meta_SIGN]
    by_cases hcond : 0 < j ∧ ((s.tokens.getD (j - 1) default).val = "-" ∨
        (s.tokens.getD (j - 1) default).val = "минус")
    · rw [if_pos ⟨hmemr, by rw [hnum, if_pos hcond]; rfl⟩, if_pos hcond]
    · rw [if_neg (fun hh => by
        rw [hnum, if_neg hcond] at hh
        exact absurd hh.2 (by simp [isSignedOpt])), if_neg hcond]
  · intro hcond
    have hj1 : j - 1 + 1 = j := by omega
    show ((((List.range s.tokens.length).foldl NumberEnricher.enrichStep
      s).tokens.getD (j - 1) default).get_meta NUMBER_INDEX) = _
    rw [enrichFold_get_meta_NUM, hj1, if_pos ⟨hmemr, by rw [hnum, if_pos hcond]; rfl⟩]

/-- Witness for C4 on a concrete two-token sentence `минус 5`. -/
theorem number_enrich_records_witness :
    1 < (Sentence.new "минус 5" [Token.new "минус" (Loc.new 0 5),
        Token.new "5" (Loc.new 6 1)]).tokens.length ∧
      parseU64 (((Sentence.new "минус 5" [Token.new "минус" (Loc.new 0 5),
        Token.new "5" (Loc.new 6 1)]).tokens.getD 1 default).val) = some 5 ∧
      (5 : Nat) < 2 ^ 63 ∧
      ((NumberEnricher.enrich (Sentence.new "минус 5" [Token.new "минус" (Loc.new 0 5),
        Token.new "5" (Loc.new 6 1)])).tokens.getD 1 default).get_meta VALUE =
        some (Meta.I64 (-5)) ∧
      ((NumberEnricher.enrich (Sentence.new "минус 5" [Token.new "минус" (Loc.new 0 5),
        Token.new "5" (Loc.new 6 1)])).tokens.getD 1 default).get_meta SIGN_INDEX =
        some (Meta.Usize 0) ∧
      ((NumberEnricher.enrich (Sentence.new "минус 5" [Token.new "минус" (Loc.new 0 5),
        Token.new "5" (Loc.new 6 1)])).tokens.getD 0 default).get_meta NUMBER_INDEX =
        some (Meta.Usize 1) := by
  have h := number_enrich_records (Sentence.new "минус 5" [Token.new "минус" (Loc.new 0 5),
    Token.new "5" (Loc.new 6 1)]) 1 5 (by decide) rfl (by decide)
  refine ⟨by decide, rfl, by decide, ?_, ?_, ?_⟩
  · rw [h.1]; rfl
  · rw [h.2.1]; rfl
  · exact h.2.2 ⟨by decide, Or.inr rfl⟩

/-- Counterexample for C4 as stated: for the maximal `u64` magnitude
`18446744073709551615` preceded by a `-` token, the recorded signed value is
`1` (the wrapping `(val as i64) * -1`), not `-18446744073709551615`. -/
theorem number_enrich_records_cx :
    ((NumberEnricher.enrich (Sentence.new "- 18446744073709551615"
        [Token.new "-" (Loc.new 0 1),
         Token.new "18446744073709551615" (Loc.new 2 20)])).tokens.getD 1
      default).get_meta VALUE = some (Meta.I64 1) ∧
      Meta.I64 1 ≠ Meta.I64 (-(18446744073709551615 : Int)) := by
  refine ⟨rfl, ?_⟩
  intro hcontra
  rw [Meta.I64.injEq] at hcontra
  exact absurd hcontra (by decide)

/-- Every token emitted by the tokenizer loop carries no metadata. -/
theorem tokenizeGo_meta (stem : String → String) (ps : List (Nat × Char)) :
    ∀ (tokens : List Token) (builder : Option (TokenBuilder × Bool)),
      (∀ t ∈ tokens, t.meta = []) →
      ∀ t ∈ Service.tokenizeGo stem tokens builder ps, t.meta = [] := by
  have hpush : ∀ (tokens : List Token) (tk : Token), (∀ t ∈ tokens, t.meta = []) →
      tk.meta = [] → ∀ t ∈ tokens ++ [tk], t.meta = [] := by
    intro tokens tk h htk t ht
    rcases List.mem_append.mp ht with ht | ht
    · exact h t ht
    · rw [List.mem_singleton.mp ht]; exact htk
  induction ps with
  | nil =>
    intro tokens builder h
    cases builder with
    | none => exact h
    | some b => exact hpush tokens _ h rfl
  | cons p rest ih =>
    obtain ⟨i, c⟩ := p
    intro tokens builder h
    by_cases hw : isAsciiWhitespace c
    · cases builder with
      | none =>
        simp only [Service.tokenizeGo, hw, if_true]
        exact ih tokens none h
      | some b =>
        simp only [Service.tokenizeGo, hw, if_true]
        exact ih _ none (hpush tokens _ h rfl)
    · by_cases hp : isAsciiPunct c
      · cases builder with
        | none =>
          simp only [Service.tokenizeGo, hw, hp, if_true, if_false]
          exact ih _ none (hpush tokens _ h rfl)
        | some b =>
          simp only [Service.tokenizeGo, hw, hp, if_true, if_false]
          exact ih _ none (hpush _ _ (hpush tokens _ h rfl) rfl)
      · cases builder with
        | none =>
          simp only [Service.tokenizeGo, hw, hp, if_false]
          exact ih tokens _ h
        | some b =>
          by_cases hcls : b.2 = isNumericChar c
          · simp only [Service.tokenizeGo, hw, hp, if_false, hcls, if_true]
            exact ih tokens _ h
          · simp only [Service.tokenizeGo, hw, hp, if_false, hcls, if_true]
            exact ih _ _ (hpush tokens _ h rfl)

/-- Tokens fresh from `Service::tokenize` carry no metadata. -/
theorem tokenize_meta_empty (svc : Service) (msg : String) (j : Nat) :
    ((svc.tokenize msg).getD j default).meta = [] := by
  by_cases hj : j < (svc.tokenize msg).length
  · rw [List.getD_eq_getElem?_getD, List.getElem?_eq_getElem hj, Option.getD_some]
    exact tokenizeGo_meta svc.stem _ [] none (by simp)
      _ (List.getElem_mem hj)
  · rw [List.getD_eq_getElem?_getD, List.getElem?_eq_none (le_of_not_lt hj)]
    rfl

/-- After enriching a metadata-free sentence, the `number.number` metadata is
exactly the classification result. -/
theorem enrich_fresh_VALUE (s₀ : Sentence)
    (hfresh : ∀ j, (s₀.tokens.getD j default).meta = []) (j : Nat) :
    ((NumberEnricher.enrich s₀).tokens.getD j default).get_meta VALUE =
      match NumberEnricher.numberAt s₀ j with
      | some (.Signed v) => some (Meta.I64 v)
      | some (.Unsigned m) => some (Meta.U64 m)
      | none => none := by
  have horig : (s₀.tokens.getD j default).get_meta VALUE = none := by
    show List.lookup VALUE (s₀.tokens.getD j default).meta = none
    rw [hfresh j]; rfl
  show ((((List.range s₀.tokens.length).foldl NumberEnricher.enrichStep
    s₀).tokens.getD j default).get_meta VALUE) = _
  rw [enrichFold_get_meta_VALUE]
  by_cases hj : j ∈ List.range s₀.tokens.length
  · rw [if_pos hj]
    cases hn : NumberEnricher.numberAt s₀ j with
    | none => exact horig
    | some n => cases n <;> rfl
  · rw [if_neg hj, horig]
    cases hn : NumberEnricher.numberAt s₀ j with
    | none => rfl
    | some n =>
      exact absurd (List.mem_range.mpr (numberAt_isSome_lt (by rw [hn]; rfl))) hj

/-- After enriching a metadata-free sentence, the `number.sign_index`
metadata is present exactly on signed number tokens. -/
theorem enrich_fresh_SIGN (s₀ : Sentence)
    (hfresh : ∀ j, (s₀.tokens.getD j default).meta = []) (j : Nat) :
    ((NumberEnricher.enrich s₀).tokens.getD j default).get_meta SIGN_INDEX =
      if isSignedOpt (NumberEnricher.numberAt s₀ j) = true then
        some (Meta.Usize (j - 1))
      else none := by
  have horig : (s₀.tokens.getD j default).get_meta SIGN_INDEX = none := by
    show List.lookup SIGN_INDEX (s₀.tokens.getD j default).meta = none
    rw [hfresh j]; rfl
  show ((((List.range s₀.tokens.length).foldl NumberEnricher.enrichStep
    s₀).tokens.getD j default).get_meta SIGN_INDEX) = _
  rw [enrichFold_get_meta_SIGN]
  by_cases hs : isSignedOpt (NumberEnricher.numberAt s₀ j) = true
  · have hlt : j < s₀.tokens.length := by
      cases hn : NumberEnricher.numberAt s₀ j with
      | none => rw [hn] at hs; simp [isSignedOpt] at hs
      | some n => exact numberAt_isSome_lt (by rw [hn]; rfl)
    rw [if_pos ⟨List.mem_range.mpr hlt, hs⟩, if_pos hs]
  · rw [if_neg (fun hh => hs hh.2), if_neg hs, horig]

/-- `NumberEnricher::extract` over an enriched metadata-free sentence never
panics and reconstructs the classification list, a 2-token span starting at
the sign token for signed numbers, a 1-token span at the number token
otherwise. -/
theorem extractGo_enrich_fresh (s₀ : Sentence)
    (hfresh : ∀ j, (s₀.tokens.getD j default).meta = []) (idxs : List Nat) :
    ∀ acc, NumberEnricher.extractGo (NumberEnricher.enrich s₀) acc idxs =
      .ok (acc ++ idxs.filterMap (fun j =>
        match NumberEnricher.numberAt s₀ j with
        | some (.Signed v) => some (Loc.new (j - 1) 2, Number.Signed v)
        | some (.Unsigned m) => some (Loc.new j 1, Number.Unsigned m)
        | none => none)) := by
  induction idxs with
  | nil => intro acc; simp [NumberEnricher.extractGo]
  | cons j rest ih =>
    intro acc
    cases hn : NumberEnricher.numberAt s₀ j with
    | none =>
      have hv : ((NumberEnricher.enrich s₀).tokens.getD j default).get_meta VALUE = none := by
        rw [enrich_fresh_VALUE s₀ hfresh j, hn]
      simp only [NumberEnricher.extractGo, hv, List.filterMap_cons, hn]
      exact ih acc
    | some n =>
      cases n with
      | Signed v =>
        have hv : ((NumberEnricher.enrich s₀).tokens.getD j default).get_meta VALUE =
            some (Meta.I64 v) := by
          rw [enrich_fresh_VALUE s₀ hfresh j, hn]
        have hs : ((NumberEnricher.enrich s₀).tokens.getD j default).get_meta SIGN_INDEX =
            some (Meta.Usize (j - 1)) := by
          rw [enrich_fresh_SIGN s₀ hfresh j, hn]
          rfl
        simp only [NumberEnricher.extractGo, hv, hs, Meta.as_usize, Meta.as_i64,
          List.filterMap_cons, hn]
        rw [ih (acc ++ [(Loc.new (j - 1) 2, Number.Signed v)])]
        simp
      | Unsigned m =>
        have hv : ((NumberEnricher.enrich s₀).tokens.getD j default).get_meta VALUE =
            some (Meta.U64 m) := by
          rw [enrich_fresh_VALUE s₀ hfresh j, hn]
        have hs : ((NumberEnricher.enrich s₀).tokens.getD j default).get_meta SIGN_INDEX =
            none := by
          rw [enrich_fresh_SIGN s₀ hfresh j, hn]
          rfl
        simp only [NumberEnricher.extractGo, hv, hs, Meta.as_u64,
          List.filterMap_cons, hn]
        rw [ih (acc ++ [(Loc.new j 1, Number.Unsigned m)])]
        simp

/-- `NumberEnricher::extract` after `enrich` on a fresh sentence, as a
`filterMap` over token positions. -/
theorem extract_enrich_fresh (s₀ : Sentence)
    (hfresh : ∀ j, (s₀.tokens.getD j default).meta = []) :
    NumberEnricher.extract (NumberEnricher.enrich s₀) =
      .ok ((List.range s₀.tokens.length).filterMap (fun j =>
        match NumberEnricher.numberAt s₀ j with
        | some (.Signed v) => some (Loc.new (j - 1) 2, Number.Signed v)
        | some (.Unsigned m) => some (Loc.new j 1, Number.Unsigned m)
        | none => none)) := by
  have hlen : (NumberEnricher.enrich s₀).tokens.length = s₀.tokens.length :=
    enrichFold_length _ s₀
  show NumberEnricher.extractGo _ [] (List.range (NumberEnricher.enrich s₀).tokens.length) = _
  rw [hlen, extractGo_enrich_fresh s₀ hfresh (List.range s₀.tokens.length) []]
  simp

/-- A token whose stemmed value does not parse as a number is not classified. -/
theorem numberAt_none_of_parse {s : Sentence} {j : Nat}
    (hp : parseU64 ((s.tokens.getD j default).val) = none) :
    NumberEnricher.numberAt s j = none := by
  unfold NumberEnricher.numberAt
  rw [hp]

set_option maxHeartbeats 4000000 in
set_option maxRecDepth 16384 in
/-- C3: with `NumberEnricher` registered, producing a sentence from the
spec's reference input and extracting yields exactly, in token order,
unsigned 120, unsigned 30, signed −50, signed −90, unsigned 140, unsigned 40
and unsigned 70, each signed span starting at its sign token's index with
length 2 and each unsigned span at the number token's own index with length 1
(for any stemmer fixing the number/dash tokens and mapping the remaining
tokens to non-numbers that are not negative markers). -/
theorem number_extract_concrete (stem : String → String)
    (hnum : ∀ w ∈ ["120", "30", "50", "90", "140", "40", "70"], stem w = w)
    (hdash : stem "-" = "-")
    (hother : ∀ w ∈ ["у", "меня", "печеник", "и", "котов", ".", "%"],
      parseU64 (stem w) = none ∧ stem w ≠ "-" ∧ stem w ≠ "минус") :
    ∃ s, Service.sentence ⟨stem, [NumberEnricher.enrichFn]⟩
        "У меня 120 печеник и 30 котов. И - 50 и -90. 140% 40 % 70" = .ok s ∧
      NumberEnricher.extract s = .ok
        [(Loc.new 2 1, Number.Unsigned 120), (Loc.new 5 1, Number.Unsigned 30),
         (Loc.new 9 2, Number.Signed (-50)), (Loc.new 12 2, Number.Signed (-90)),
         (Loc.new 15 1, Number.Unsigned 140), (Loc.new 17 1, Number.Unsigned 40),
         (Loc.new 19 1, Number.Unsigned 70)] := by
  have h120 := hnum "120" (by simp)
  have h30 := hnum "30" (by simp)
  have h50 := hnum "50" (by simp)
  have h90 := hnum "90" (by simp)
  have h140 := hnum "140" (by simp)
  have h40 := hnum "40" (by simp)
  have h70 := hnum "70" (by simp)
  have hU := hother "у" (by simp)
  have hM := hother "меня" (by simp)
  have hP := hother "печеник" (by simp)
  have hI := hother "и" (by simp)
  have hK := hother "котов" (by simp)
  have hD := hother "." (by simp)
  have hPc := hother "%" (by simp)
  have htoks : Service.tokenize ⟨stem, [NumberEnricher.enrichFn]⟩
      "У меня 120 печеник и 30 котов. И - 50 и -90. 140% 40 % 70" =
    [Token.new (stem "у") (Loc.new 0 1), Token.new (stem "меня") (Loc.new 2 4),
     Token.new (stem "120") (Loc.new 7 3), Token.new (stem "печеник") (Loc.new 11 7),
     Token.new (stem "и") (Loc.new 19 1), Token.new (stem "30") (Loc.new 21 2),
     Token.new (stem "котов") (Loc.new 24 5), Token.new (stem ".") (Loc.new 29 1),
     Token.new (stem "и") (Loc.new 31 1), Token.new (stem "-") (Loc.new 33 1),
     Token.new (stem "50") (Loc.new 35 2), Token.new (stem "и") (Loc.new 38 1),
     Token.new (stem "-") (Loc.new 40 1), Token.new (stem "90") (Loc.new 41 2),
     Token.new (stem ".") (Loc.new 43 1), Token.new (stem "140") (Loc.new 45 3),
     Token.new (stem "%") (Loc.new 48 1), Token.new (stem "40") (Loc.new 50 2),
     Token.new (stem "%") (Loc.new 53 1), Token.new (stem "70") (Loc.new 55 2)] := rfl
  have hpd : parseU64 (stem "-") = none := by rw [hdash]; decide
  have hfold : ∀ s₀ : Sentence, s₀.tokens =
      [Token.new (stem "у") (Loc.new 0 1), Token.new (stem "меня") (Loc.new 2 4),
       Token.new (stem "120") (Loc.new 7 3), Token.new (stem "печеник") (Loc.new 11 7),
       Token.new (stem "и") (Loc.new 19 1), Token.new (stem "30") (Loc.new 21 2),
       Token.new (stem "котов") (Loc.new 24 5), Token.new (stem ".") (Loc.new 29 1),
       Token.new (stem "и") (Loc.new 31 1), Token.new (stem "-") (Loc.new 33 1),
       Token.new (stem "50") (Loc.new 35 2), Token.new (stem "и") (Loc.new 38 1),
       Token.new (stem "-") (Loc.new 40 1), Token.new (stem "90") (Loc.new 41 2),
       Token.new (stem ".") (Loc.new 43 1), Token.new (stem "140") (Loc.new 45 3),
       Token.new (stem "%") (Loc.new 48 1), Token.new (stem "40") (Loc.new 50 2),
       Token.new (stem "%") (Loc.new 53 1), Token.new (stem "70") (Loc.new 55 2)] →
      (List.range s₀.tokens.length).filterMap (fun j =>
        match NumberEnricher.numberAt s₀ j with
        | some (.Signed v) => some (Loc.new (j - 1) 2, Number.Signed v)
        | some (.Unsigned m) => some (Loc.new j 1, Number.Unsigned m)
        | none => none) =
      [(Loc.new 2 1, Number.Unsigned 120), (Loc.new 5 1, Number.Unsigned 30),
       (Loc.new 9 2, Number.Signed (-50)), (Loc.new 12 2, Number.Signed (-90)),
       (Loc.new 15 1, Number.Unsigned 140), (Loc.new 17 1, Number.Unsigned 40),
       (Loc.new 19 1, Number.Unsigned 70)] := by
    intro s₀ htk
    have hunsigned : ∀ (j m : Nat) (w pw : String),
        (s₀.tokens.getD j default).val = stem w →
        (s₀.tokens.getD (j - 1) default).val = stem pw →
        stem w = w → parseU64 w = some m → m < 2 ^ 63 →
        stem pw ≠ "-" → stem pw ≠ "минус" →
        NumberEnricher.numberAt s₀ j = some (.Unsigned m) := by
      intro j m w pw hv hpv hw hp hsm hd hmn
      have hm : parseU64 ((s₀.tokens.getD j default).val) = some m := by
        rw [hv, hw]; exact hp
      rw [numberAt_of_parse hm hsm, if_neg (fun hh => by
        rcases hh.2 with hc | hc
        · rw [hpv] at hc; exact hd hc
        · rw [hpv] at hc; exact hmn hc)]
    have hsigned : ∀ (j m : Nat) (w : String),
        (s₀.tokens.getD j default).val = stem w →
        (s₀.tokens.getD (j - 1) default).val = stem "-" →
        stem w = w → parseU64 w = some m → m < 2 ^ 63 → 0 < j →
        NumberEnricher.numberAt s₀ j = some (.Signed (-(m : Int))) := by
      intro j m w hv hpv hw hp hsm h0
      have hm : parseU64 ((s₀.tokens.getD j default).val) = some m := by
        rw [hv, hw]; exact hp
      rw [numberAt_of_parse hm hsm, if_pos ⟨h0, Or.inl (by rw [hpv, hdash])⟩]
    have hnone : ∀ (j : Nat) (w : String), (s₀.tokens.getD j default).val = stem w →
        parseU64 (stem w) = none → NumberEnricher.numberAt s₀ j = none := by
      intro j w hv hp
      exact numberAt_none_of_parse (by rw [hv]; exact hp)
    have hn0 := hnone 0 "у" (by rw [htk]; rfl) hU.1
    have hn1 := hnone 1 "меня" (by rw [htk]; rfl) hM.1
    have hn2 := hunsigned 2 120 "120" "меня" (by rw [htk]; rfl) (by rw [htk]; rfl)
      h120 (by decide) (by decide) hM.2.1 hM.2.2
    have hn3 := hnone 3 "печеник" (by rw [htk]; rfl) hP.1
    have hn4 := hnone 4 "и" (by rw [htk]; rfl) hI.1
    have hn5 := hunsigned 5 30 "30" "и" (by rw [htk]; rfl) (by rw [htk]; rfl)
      h30 (by decide) (by decide) hI.2.1 hI.2.2
    have hn6 := hnone 6 "котов" (by rw [htk]; rfl) hK.1
    have hn7 := hnone 7 "." (by rw [htk]; rfl) hD.1
    have hn8 := hnone 8 "и" (by rw [htk]; rfl) hI.1
    have hn9 := hnone 9 "-" (by rw [htk]; rfl) hpd
    have hn10 := hsigned 10 50 "50" (by rw [htk]; rfl) (by rw [htk]; rfl)
      h50 (by decide) (by decide) (by decide)
    have hn11 := hnone 11 "и" (by rw [htk]; rfl) hI.1
    have hn12 := hnone 12 "-" (by rw [htk]; rfl) hpd
    have hn13 := hsigned 13 90 "90" (by rw [htk]; rfl) (by rw [htk]; rfl)
      h90 (by decide) (by decide) (by decide)
    have hn14 := hnone 14 "." (by rw [htk]; rfl) hD.1
    have hn15 := hunsigned 15 140 "140" "." (by rw [htk]; rfl) (by rw [htk]; rfl)
      h140 (by decide) (by decide) hD.2.1 hD.2.2
    have hn16 := hnone 16 "%" (by rw [htk]; rfl) hPc.1
    have hn17 := hunsigned 17 40 "40" "%" (by rw [htk]; rfl) (by rw [htk]; rfl)
      h40 (by decide) (by decide) hPc.2.1 hPc.2.2
    have hn18 := hnone 18 "%" (by rw [htk]; rfl) hPc.1
    have hn19 := hunsigned 19 70 "70" "%" (by rw [htk]; rfl) (by rw [htk]; rfl)
      h70 (by decide) (by decide) hPc.2.1 hPc.2.2
    have hlen : s₀.tokens.length = 20 := by rw [htk]; rfl
    rw [hlen]
    have hrange : List.range 20 =
        [0, 1, 2, 3, 4, 5, 6, 7, 8, 9, 10, 11, 12, 13, 14, 15, 16, 17, 18, 19] := rfl
    rw [hrange]
    simp only [List.filterMap_cons, List.filterMap_nil, hn0, hn1, hn2, hn3, hn4, hn5,
      hn6, hn7, hn8, hn9, hn10, hn11, hn12, hn13, hn14, hn15, hn16, hn17, hn18, hn19]
    rfl
  refine ⟨_, rfl, ?_⟩
  rw [extract_enrich_fresh
      (Sentence.new "У меня 120 печеник и 30 котов. И - 50 и -90. 140% 40 % 70"
        (Service.tokenize ⟨stem, [NumberEnricher.enrichFn]⟩
          "У меня 120 печеник и 30 котов. И - 50 и -90. 140% 40 % 70"))
      (fun j => tokenize_meta_empty ⟨stem, [NumberEnricher.enrichFn]⟩ _ j),
    hfold (Sentence.new "У меня 120 печеник и 30 котов. И - 50 и -90. 140% 40 % 70"
      (Service.tokenize ⟨stem, [NumberEnricher.enrichFn]⟩
        "У меня 120 печеник и 30 котов. И - 50 и -90. 140% 40 % 70")) htoks]

/-- Witness for C3 with the identity stemmer. -/
theorem number_extract_concrete_witness :
    ∃ s, Service.sentence ⟨id, [NumberEnricher.enrichFn]⟩
        "У меня 120 печеник и 30 котов. И - 50 и -90. 140% 40 % 70" = .ok s ∧
      NumberEnricher.extract s = .ok
        [(Loc.new 2 1, Number.Unsigned 120), (Loc.new 5 1, Number.Unsigned 30),
         (Loc.new 9 2, Number.Signed (-50)), (Loc.new 12 2, Number.Signed (-90)),
         (Loc.new 15 1, Number.Unsigned 140), (Loc.new 17 1, Number.Unsigned 40),
         (Loc.new 19 1, Number.Unsigned 70)] :=
  number_extract_concrete id (by decide) rfl (by decide)

/-- The `StopWordEnricher::extract` loop as a `filterMap` over positions. -/
theorem stopword_extractGo_eq (s : Sentence) (idxs : List Nat) :
    ∀ acc, StopWordEnricher.extractGo s acc idxs =
      acc ++ idxs.filterMap (fun i =>
        if ((s.tokens.getD i default).get_meta STOP_WORD).isSome then
          some (Loc.new i 1, s.by_loc (s.tokens.getD i default).loc)
        else none) := by
  induction idxs with
  | nil => intro acc; simp [StopWordEnricher.extractGo]
  | cons i rest ih =>
    intro acc
    by_cases hm : ((s.tokens.getD i default).get_meta STOP_WORD).isSome = true
    · simp only [StopWordEnricher.extractGo, List.filterMap_cons, hm, if_true]
      rw [ih (acc ++ [(Loc.new i 1, s.by_loc (s.tokens.getD i default).loc)])]
      simp
    · simp only [StopWordEnricher.extractGo, List.filterMap_cons]
      rw [if_neg hm, if_neg hm, ih acc]

/-- `StopWordEnricher::extract` lists exactly the flagged token positions in
order, each with a 1-token span and the reconstructed source substring. -/
theorem stopword_extract_eq (s : Sentence) :
    StopWordEnricher.extract s = (List.range s.tokens.length).filterMap (fun i =>
      if ((s.tokens.getD i default).get_meta STOP_WORD).isSome then
        some (Loc.new i 1, s.by_loc (s.tokens.getD i default).loc)
      else none) := by
  show StopWordEnricher.extractGo s [] _ = _
  rw [stopword_extractGo_eq]
  simp

/-- C10: the `Loc` values returned by `NumberEnricher::extract` and
`StopWordEnricher::extract` are in token units and name the entry's own
tokens.  On a freshly tokenized sentence, number extraction returns exactly
one entry per number-classified token `j`: when token `j - 1` is its sign
(`numberAt` yields `Signed`), the entry sits at `Loc (j - 1) 2` — the sign
token's position in the token sequence, spanning the two-token sign+number
pair — and otherwise at `Loc j 1`, the matching token's own position with a
one-token span.  On any sentence, stop-word extraction returns exactly one
entry per flagged token position `i`, at `Loc i 1` with that token's source
text (unlike `Token.loc`, which indexes characters of the raw text). -/
theorem extract_locs_are_token_indices (stem : String → String) (raw : String) :
    NumberEnricher.extract (NumberEnricher.enrich
        (Sentence.new raw (Service.tokenize ⟨stem, []⟩ raw))) =
      .ok ((List.range (Service.tokenize ⟨stem, []⟩ raw).length).filterMap (fun j =>
        match NumberEnricher.numberAt
            (Sentence.new raw (Service.tokenize ⟨stem, []⟩ raw)) j with
        | some (.Signed v) => some (Loc.new (j - 1) 2, Number.Signed v)
        | some (.Unsigned m) => some (Loc.new j 1, Number.Unsigned m)
        | none => none)) ∧
    ∀ (s : Sentence), StopWordEnricher.extract s =
      (List.range s.tokens.length).filterMap (fun i =>
        if ((s.tokens.getD i default).get_meta STOP_WORD).isSome then
          some (Loc.new i 1, s.by_loc (s.tokens.getD i default).loc)
        else none) := by
  constructor
  · exact extract_enrich_fresh
      (Sentence.new raw (Service.tokenize ⟨stem, []⟩ raw))
      (fun j => tokenize_meta_empty ⟨stem, []⟩ raw j)
  · exact fun s => stopword_extract_eq s

/-- Witness for C10 with the identity stemmer on a signed/unsigned input:
the signed 5 is reported at its sign token's position 0 with a two-token
span, the unsigned 7 at its own token position 2 with a one-token span. -/
theorem extract_locs_are_token_indices_witness :
    NumberEnricher.extract (NumberEnricher.enrich
        (Sentence.new "- 5 7" (Service.tokenize ⟨id, []⟩ "- 5 7"))) =
      .ok [(Loc.new 0 2, Number.Signed (-5)), (Loc.new 2 1, Number.Unsigned 7)] := by
  rw [(extract_locs_are_token_indices id "- 5 7").1]
  rfl

/-- Flagging a token keeps the raw text. -/
theorem setStopWord_raw (s : Sentence) (i : Nat) : (s.setStopWord i).raw = s.raw := rfl

/-- Flagging a token keeps the token count. -/
theorem setStopWord_length (s : Sentence) (i : Nat) :
    (s.setStopWord i).tokens.length = s.tokens.length :=
  List.length_set _ _ _

/-- Flagging a token keeps every token's value. -/
theorem setStopWord_val (s : Sentence) (i j : Nat) :
    ((s.setStopWord i).tokens.getD j default).val = (s.tokens.getD j default).val :=
  observe_set_getD Token.val _ i _ j rfl

/-- Flagging a token keeps every token's location. -/
theorem setStopWord_loc (s : Sentence) (i j : Nat) :
    ((s.setStopWord i).tokens.getD j default).loc = (s.tokens.getD j default).loc :=
  observe_set_getD Token.loc _ i _ j rfl

/-- Flagging a token keeps all other metadata keys. -/
theorem setStopWord_get_meta_other (s : Sentence) (i j : Nat) (key : String)
    (h : key ≠ STOP_WORD) :
    ((s.setStopWord i).tokens.getD j default).get_meta key =
      (s.tokens.getD j default).get_meta key :=
  observe_set_getD (fun t => t.get_meta key) _ i _ j (get_meta_add_meta_ne _ _ _ _ h)

/-- The `stop_word` metadata after flagging one token. -/
theorem setStopWord_get_meta (s : Sentence) (i j : Nat) :
    ((s.setStopWord i).tokens.getD j default).get_meta STOP_WORD =
      if j = i ∧ i < s.tokens.length then some (Meta.Bool true)
      else (s.tokens.getD j default).get_meta STOP_WORD := by
  by_cases hj : j = i
  · subst hj
    by_cases hlen : j < s.tokens.length
    · rw [if_pos ⟨rfl, hlen⟩]
      show ((s.tokens.set j ((s.tokens.getD j default).add_meta STOP_WORD
        (Meta.Bool true))).getD j default).get_meta STOP_WORD = _
      rw [getD_set_self hlen, get_meta_add_meta_self]
    · rw [if_neg (fun hh => hlen hh.2)]
      have hsame : (s.tokens.set j ((s.tokens.getD j default).add_meta STOP_WORD
          (Meta.Bool true))).getD j default = s.tokens.getD j default := by
        rw [List.getD_eq_getElem?_getD, List.getElem?_set, if_pos rfl, if_neg hlen,
          List.getD_eq_getElem?_getD, List.getElem?_eq_none (le_of_not_lt hlen)]
      show ((s.tokens.set j ((s.tokens.getD j default).add_meta STOP_WORD
        (Meta.Bool true))).getD j default).get_meta STOP_WORD = _
      rw [hsame]
  · rw [if_neg (fun hh => hj hh.1)]
    show ((s.tokens.set i ((s.tokens.getD i default).add_meta STOP_WORD
      (Meta.Bool true))).getD j default).get_meta STOP_WORD = _
    rw [getD_set_ne (fun hh => hj hh.symm)]

/-- The fold that flags a list of positions keeps the raw text. -/
theorem markFold_raw (P : List Nat) :
    ∀ s : Sentence, (P.foldl Sentence.setStopWord s).raw = s.raw := by
  induction P with
  | nil => intro s; rfl
  | cons i rest ih =>
    intro s
    rw [List.foldl_cons, ih (s.setStopWord i), setStopWord_raw]

/-- The flagging fold keeps the token count. -/
theorem markFold_length (P : List Nat) :
    ∀ s : Sentence, (P.foldl Sentence.setStopWord s).tokens.length = s.tokens.length := by
  induction P with
  | nil => intro s; rfl
  | cons i rest ih =>
    intro s
    rw [List.foldl_cons, ih (s.setStopWord i), setStopWord_length]

/-- The flagging fold keeps every token's value. -/
theorem markFold_val (P : List Nat) :
    ∀ (s : Sentence) (j : Nat),
      ((P.foldl Sentence.setStopWord s).tokens.getD j default).val =
        (s.tokens.getD j default).val := by
  induction P with
  | nil => intro s j; rfl
  | cons i rest ih =>
    intro s j
    rw [List.foldl_cons, ih (s.setStopWord i) j, setStopWord_val]

/-- The flagging fold keeps every token's location. -/
theorem markFold_loc (P : List Nat) :
    ∀ (s : Sentence) (j : Nat),
      ((P.foldl Sentence.setStopWord s).tokens.getD j default).loc =
        (s.tokens.getD j default).loc := by
  induction P with
  | nil => intro s j; rfl
  | cons i rest ih =>
    intro s j
    rw [List.foldl_cons, ih (s.setStopWord i) j, setStopWord_loc]

/-- The `stop_word` metadata after flagging all positions in `P`. -/
theorem markFold_get_meta (P : List Nat) :
    ∀ (s : Sentence) (j : Nat),
      ((P.foldl Sentence.setStopWord s).tokens.getD j default).get_meta STOP_WORD =
        if j ∈ P ∧ j < s.tokens.length then some (Meta.Bool true)
        else (s.tokens.getD j default).get_meta STOP_WORD := by
  induction P with
  | nil => intro s j; simp
  | cons i rest ih =>
    intro s j
    rw [List.foldl_cons, ih (s.setStopWord i) j, setStopWord_length, setStopWord_get_meta]
    by_cases hlen : j < s.tokens.length
    · by_cases hjr : j ∈ rest
      · rw [if_pos ⟨hjr, hlen⟩, if_pos ⟨List.mem_cons_of_mem i hjr, hlen⟩]
      · rw [if_neg (fun hh => hjr hh.1)]
        by_cases hji : j = i
        · subst hji
          rw [if_pos ⟨rfl, hlen⟩, if_pos ⟨List.mem_cons_self j rest, hlen⟩]
        · rw [if_neg (fun hh => hji hh.1), if_neg (fun hh => by
            rcases List.mem_cons.mp hh.1 with hEq | hMem
            · exact hji hEq
            · exact hjr hMem)]
    · rw [if_neg (show ¬(j ∈ rest ∧ j < s.tokens.length) from fun hh => hlen hh.2),
        if_neg (show ¬(j = i ∧ i < s.tokens.length) from
          fun hh => hlen (by rw [hh.1]; exact hh.2)),
        if_neg (show ¬(j ∈ i :: rest ∧ j < s.tokens.length) from fun hh => hlen hh.2)]

/-- A stop-word scan that never hits the dictionary returns the sentence
unchanged (for either abort mode). -/
theorem stopword_enrichGo_nomatch (contains : String → Bool) (brake : Bool)
    (idxs : List Nat) :
    ∀ s, (∀ i ∈ idxs, contains ((s.tokens.getD i default).val) = false) →
      StopWordEnricher.enrichGo contains brake s idxs = .ok s := by
  induction idxs with
  | nil => intro s _; rfl
  | cons i rest ih =>
    intro s h
    have hc := h i (List.mem_cons_self i rest)
    simp only [StopWordEnricher.enrichGo, hc, Bool.false_eq_true, if_false]
    exact ih s (fun k hk => h k (List.mem_cons_of_mem i hk))

/-- With aborting off, the stop-word scan succeeds and equals the
flag-matching fold. -/
theorem stopword_enrichGo_nobrake (contains : String → Bool) (idxs : List Nat) :
    ∀ s, StopWordEnricher.enrichGo contains false s idxs =
      .ok (idxs.foldl (fun s i =>
        if contains ((s.tokens.getD i default).val) = true then s.setStopWord i else s) s) := by
  induction idxs with
  | nil => intro s; rfl
  | cons i rest ih =>
    intro s
    by_cases hc : contains ((s.tokens.getD i default).val) = true
    · simp only [StopWordEnricher.enrichGo, hc, if_true, List.foldl_cons]
      exact ih (s.setStopWord i)
    · simp only [StopWordEnricher.enrichGo, List.foldl_cons]
      rw [if_neg hc, if_neg hc]
      exact ih s

/-- The conditioned flagging fold keeps the raw text, token count, values and
locations, and flags exactly the scanned positions whose value matches. -/
theorem condFold_raw (contains : String → Bool) (idxs : List Nat) :
    ∀ s : Sentence, (idxs.foldl (fun s i =>
        if contains ((s.tokens.getD i default).val) = true then s.setStopWord i else s)
      s).raw = s.raw := by
  induction idxs with
  | nil => intro s; rfl
  | cons i rest ih =>
    intro s
    rw [List.foldl_cons, ih]
    by_cases hc : contains ((s.tokens.getD i default).val) = true
    · rw [if_pos hc, setStopWord_raw]
    · rw [if_neg hc]

/-- Token count preservation for the conditioned flagging fold. -/
theorem condFold_length (contains : String → Bool) (idxs : List Nat) :
    ∀ s : Sentence, (idxs.foldl (fun s i =>
        if contains ((s.tokens.getD i default).val) = true then s.setStopWord i else s)
      s).tokens.length = s.tokens.length := by
  induction idxs with
  | nil => intro s; rfl
  | cons i rest ih =>
    intro s
    rw [List.foldl_cons, ih]
    by_cases hc : contains ((s.tokens.getD i default).val) = true
    · rw [if_pos hc, setStopWord_length]
    · rw [if_neg hc]

/-- Value preservation for the conditioned flagging fold. -/
theorem condFold_val (contains : String → Bool) (idxs : List Nat) :
    ∀ (s : Sentence) (j : Nat), ((idxs.foldl (fun s i =>
        if contains ((s.tokens.getD i default).val) = true then s.setStopWord i else s)
      s).tokens.getD j default).val = (s.tokens.getD j default).val := by
  induction idxs with
  | nil => intro s j; rfl
  | cons i rest ih =>
    intro s j
    rw [List.foldl_cons, ih]
    by_cases hc : contains ((s.tokens.getD i default).val) = true
    · rw [if_pos hc, setStopWord_val]
    · rw [if_neg hc]

/-- Location preservation for the conditioned flagging fold. -/
theorem condFold_loc (contains : String → Bool) (idxs : List Nat) :
    ∀ (s : Sentence) (j : Nat), ((idxs.foldl (fun s i =>
        if contains ((s.tokens.getD i default).val) = true then s.setStopWord i else s)
      s).tokens.getD j default).loc = (s.tokens.getD j default).loc := by
  induction idxs with
  | nil => intro s j; rfl
  | cons i rest ih =>
    intro s j
    rw [List.foldl_cons, ih]
    by_cases hc : contains ((s.tokens.getD i default).val) = true
    · rw [if_pos hc, setStopWord_loc]
    · rw [if_neg hc]

/-- The `stop_word` metadata after the conditioned flagging fold. -/
theorem condFold_get_meta (contains : String → Bool) (idxs : List Nat) :
    ∀ (s : Sentence) (j : Nat), ((idxs.foldl (fun s i =>
        if contains ((s.tokens.getD i default).val) = true then s.setStopWord i else s)
      s).tokens.getD j default).get_meta STOP_WORD =
        if j ∈ idxs ∧ j < s.tokens.length ∧
            contains ((s.tokens.getD j default).val) = true then
          some (Meta.Bool true)
        else (s.tokens.getD j default).get_meta STOP_WORD := by
  induction idxs with
  | nil => intro s j; simp
  | cons i rest ih =>
    intro s j
    rw [List.foldl_cons]
    by_cases hc : contains ((s.tokens.getD i default).val) = true
    · rw [if_pos hc, ih (s.setStopWord i) j, setStopWord_length, setStopWord_val,
        setStopWord_get_meta]
      by_cases hcj : contains ((s.tokens.getD j default).val) = true
      · by_cases hlen : j < s.tokens.length
        · by_cases hjr : j ∈ rest
          · rw [if_pos ⟨hjr, hlen, hcj⟩, if_pos ⟨List.mem_cons_of_mem i hjr, hlen, hcj⟩]
          · rw [if_neg (fun hh => hjr hh.1)]
            by_cases hji : j = i
            · subst hji
              rw [if_pos ⟨rfl, hlen⟩, if_pos ⟨List.mem_cons_self j rest, hlen, hcj⟩]
            · rw [if_neg (fun hh => hji hh.1), if_neg (fun hh => by
                rcases List.mem_cons.mp hh.1 with hEq | hMem
                · exact hji hEq
                · exact hjr hMem)]
        · rw [if_neg (show ¬(j ∈ rest ∧ j < s.tokens.length ∧
              contains ((s.tokens.getD j default).val) = true) from fun hh => hlen hh.2.1),
            if_neg (show ¬(j = i ∧ i < s.tokens.length) from
              fun hh => hlen (by rw [hh.1]; exact hh.2)),
            if_neg (show ¬(j ∈ i :: rest ∧ j < s.tokens.length ∧
              contains ((s.tokens.getD j default).val) = true) from fun hh => hlen hh.2.1)]
      · rw [if_neg (show ¬(j ∈ rest ∧ j < s.tokens.length ∧
            contains ((s.tokens.getD j default).val) = true) from fun hh => hcj hh.2.2),
          if_neg (show ¬(j = i ∧ i < s.tokens.length) from
            fun hh => hcj (by rw [hh.1]; exact hc)),
          if_neg (show ¬(j ∈ i :: rest ∧ j < s.tokens.length ∧
            contains ((s.tokens.getD j default).val) = true) from fun hh => hcj hh.2.2)]
    · rw [if_neg hc, ih s j]
      by_cases hfull : j ∈ rest ∧ j < s.tokens.length ∧
          contains ((s.tokens.getD j default).val) = true
      · rw [if_pos hfull, if_pos ⟨List.mem_cons_of_mem i hfull.1, hfull.2⟩]
      · rw [if_neg hfull, if_neg (fun hh => by
          rcases List.mem_cons.mp hh.1 with hEq | hMem
          · subst hEq
            exact hc hh.2.2
          · exact hfull ⟨hMem, hh.2⟩)]

/-- Adding an already-present word to an unshared `LocalDictionary` is a
successful no-op reporting `false`. -/
theorem localAdd_of_mem {σ : Type} (innerAdd : σ → String → Except Err (Bool × σ))
    (dl : List String) (io : Option σ) (w : String) (hmem : w ∈ dl) :
    LocalDictionary.add innerAdd ⟨dl, false, io⟩ w = .ok (false, ⟨dl, false, io⟩) := by
  simp [LocalDictionary.add, hmem]

/-- Adding a new word to an unshared `LocalDictionary` without a backing
store inserts it and reports `true`. -/
theorem localAdd_of_not_mem {σ : Type} (innerAdd : σ → String → Except Err (Bool × σ))
    (dl : List String) (w : String) (hmem : ¬ w ∈ dl) :
    LocalDictionary.add innerAdd ⟨dl, false, none⟩ w =
      .ok (true, ⟨w :: dl, false, none⟩) := by
  simp [LocalDictionary.add, hmem]

/-- The learning loop on a shared-free inner-free dictionary: it always
succeeds, stays shared-free and inner-free, and its set afterwards contains a
word exactly when it did before or a scanned flagged token carries it. -/
theorem stopword_updateGo_local {σ : Type} (innerAdd : σ → String → Except Err (Bool × σ))
    (s : Sentence) (idxs : List Nat) :
    ∀ dl : List String, ∃ d' : LocalDictionary σ,
      StopWordEnricher.updateGo (LocalDictionary.add innerAdd)
        ⟨dl, false, none⟩ s idxs = .ok d' ∧
      d'.dictionaryShared = false ∧ d'.inner = none ∧
      ∀ w, w ∈ d'.dictionary ↔ (w ∈ dl ∨ ∃ i ∈ idxs,
        ((s.tokens.getD i default).get_meta STOP_WORD).isSome = true ∧
        (s.tokens.getD i default).val = w) := by
  induction idxs with
  | nil =>
    intro dl
    exact ⟨⟨dl, false, none⟩, rfl, rfl, rfl, fun w => by simp⟩
  | cons i rest ih =>
    intro dl
    by_cases hflag : ((s.tokens.getD i default).get_meta STOP_WORD).isSome = true
    · by_cases hmem : (s.tokens.getD i default).val ∈ dl
      · obtain ⟨d', hrun, hsh, hin, hiff⟩ := ih dl
        refine ⟨d', ?_, hsh, hin, fun w => ?_⟩
        · simp only [StopWordEnricher.updateGo, hflag, if_true]
          rw [localAdd_of_mem innerAdd dl none _ hmem]
          exact hrun
        · rw [hiff w]
          constructor
          · rintro (hw | ⟨k, hk, hkf, hkv⟩)
            · exact Or.inl hw
            · exact Or.inr ⟨k, List.mem_cons_of_mem i hk, hkf, hkv⟩
          · rintro (hw | ⟨k, hk, hkf, hkv⟩)
            · exact Or.inl hw
            · rcases List.mem_cons.mp hk with hEq | hMem
              · subst hEq
                exact Or.inl (hkv ▸ hmem)
              · exact Or.inr ⟨k, hMem, hkf, hkv⟩
      · obtain ⟨d', hrun, hsh, hin, hiff⟩ :=
          ih ((s.tokens.getD i default).val :: dl)
        refine ⟨d', ?_, hsh, hin, fun w => ?_⟩
        · simp only [StopWordEnricher.updateGo, hflag, if_true]
          rw [localAdd_of_not_mem innerAdd dl _ hmem]
          exact hrun
        · rw [hiff w]
          constructor
          · rintro (hw | ⟨k, hk, hkf, hkv⟩)
            · rcases List.mem_cons.mp hw with hEq | hMem
              · exact Or.inr ⟨i, List.mem_cons_self i rest, hflag, hEq.symm⟩
              · exact Or.inl hMem
            · exact Or.inr ⟨k, List.mem_cons_of_mem i hk, hkf, hkv⟩
          · rintro (hw | ⟨k, hk, hkf, hkv⟩)
            · exact Or.inl (List.mem_cons_of_mem _ hw)
            · rcases List.mem_cons.mp hk with hEq | hMem
              · subst hEq
                exact Or.inl (hkv ▸ List.mem_cons_self _ dl)
              · exact Or.inr ⟨k, hMem, hkf, hkv⟩
    · obtain ⟨d', hrun, hsh, hin, hiff⟩ := ih dl
      refine ⟨d', ?_, hsh, hin, fun w => ?_⟩
      · simp only [StopWordEnricher.updateGo, hflag, if_false]
        exact hrun
      · rw [hiff w]
        constructor
        · rintro (hw | ⟨k, hk, hkf, hkv⟩)
          · exact Or.inl hw
          · exact Or.inr ⟨k, List.mem_cons_of_mem i hk, hkf, hkv⟩
        · rintro (hw | ⟨k, hk, hkf, hkv⟩)
          · exact Or.inl hw
          · rcases List.mem_cons.mp hk with hEq | hMem
            · subst hEq
              exact absurd hkf hflag
            · exact Or.inr ⟨k, hMem, hkf, hkv⟩

/-- A single-stage pipeline returns its stage's successful result. -/
theorem runEnrichers_single_ok {fn : Sentence → Except Err Sentence} {base s' : Sentence}
    (h : fn base = .ok s') : runEnrichers [fn] base = .ok s' := by
  simp [runEnrichers, h]

/-- Tokens fresh from the tokenizer carry no metadata under any key. -/
theorem tokenize_get_meta_none (svc : Service) (msg : String) (j : Nat) (key : String) :
    ((svc.tokenize msg).getD j default).get_meta key = none := by
  show List.lookup key ((svc.tokenize msg).getD j default).meta = none
  rw [tokenize_meta_empty]
  rfl

/-- A `filterMap` whose function is an if-guarded `some` is a filter followed
by a map. -/
theorem filterMap_if_eq_filter_map {α β : Type} (p : α → Bool) (f : α → β) (l : List α) :
    l.filterMap (fun x => if p x = true then some (f x) else none) =
      (l.filter p).map f := by
  induction l with
  | nil => rfl
  | cons a l ih =>
    by_cases hp : p a = true
    · simp [List.filterMap_cons, List.filter_cons, hp, ih]
    · simp [List.filterMap_cons, List.filter_cons, hp, ih]

/-- C7 (amended with the proviso that no unflagged token shares its value
with a flagged one): produce a sentence with an empty dictionary and
aborting off (it comes back unannotated), manually flag the tokens at the
positions in `P`, learn through `update` (the single-enricher
`back_propagation`); producing the same raw text again then flags, as
reported by `extract`, exactly the tokens at those same positions. -/
theorem stopword_learning_round_trip (stem : String → String) (raw : String) (P : List Nat)
    (hP : ∀ p ∈ P, p < (Service.tokenize ⟨stem, []⟩ raw).length)
    (hdistinct : ∀ j, j < (Service.tokenize ⟨stem, []⟩ raw).length → j ∉ P →
      ((Service.tokenize ⟨stem, []⟩ raw).getD j default).val ∉
        P.map (fun p => ((Service.tokenize ⟨stem, []⟩ raw).getD p default).val)) :
    ∃ (d₁ : LocalDictionary EmptyDict) (s₂ : Sentence),
      Service.sentence ⟨stem, [StopWordEnricher.enrichFn
          (LocalDictionary.new [] : LocalDictionary EmptyDict).contains false]⟩ raw =
        .ok (Sentence.new raw (Service.tokenize ⟨stem, []⟩ raw)) ∧
      StopWordEnricher.update (LocalDictionary.add EmptyDict.add)
        (LocalDictionary.new [] : LocalDictionary EmptyDict)
        (P.foldl Sentence.setStopWord
          (Sentence.new raw (Service.tokenize ⟨stem, []⟩ raw))) = .ok d₁ ∧
      Service.sentence ⟨stem, [StopWordEnricher.enrichFn d₁.contains false]⟩ raw = .ok s₂ ∧
      StopWordEnricher.extract s₂ =
        ((List.range (Service.tokenize ⟨stem, []⟩ raw).length).filter
          (fun j => P.contains j)).map
          (fun i => (Loc.new i 1, (Sentence.new raw (Service.tokenize ⟨stem, []⟩ raw)).by_loc
            (((Service.tokenize ⟨stem, []⟩ raw).getD i default).loc))) := by
  have hmetaN : ∀ (j : Nat) (key : String),
      (((Sentence.new raw (Service.tokenize ⟨stem, []⟩ raw)).tokens.getD j
        default).get_meta key) = none :=
    fun j key => tokenize_get_meta_none ⟨stem, []⟩ raw j key
  have hflag : ∀ j, (((P.foldl Sentence.setStopWord
      (Sentence.new raw (Service.tokenize ⟨stem, []⟩ raw))).tokens.getD j
        default).get_meta STOP_WORD).isSome = true ↔ j ∈ P := by
    intro j
    rw [markFold_get_meta]
    by_cases hj : j ∈ P
    · rw [if_pos ⟨hj, hP j hj⟩]
      simp [hj]
    · rw [if_neg (fun hh => hj hh.1), hmetaN]
      simp [hj]
  obtain ⟨d₁, hrun, hsh, hin, hiff⟩ := stopword_updateGo_local EmptyDict.add
    (P.foldl Sentence.setStopWord (Sentence.new raw (Service.tokenize ⟨stem, []⟩ raw)))
    (List.range ((P.foldl Sentence.setStopWord
      (Sentence.new raw (Service.tokenize ⟨stem, []⟩ raw))).tokens.length)) []
  have hd₁ : ∀ w, w ∈ d₁.dictionary ↔ ∃ i ∈ P,
      (((Sentence.new raw (Service.tokenize ⟨stem, []⟩ raw)).tokens.getD i
        default).val) = w := by
    intro w
    rw [hiff w]
    constructor
    · rintro (hw | ⟨i, hirange, hif, hiv⟩)
      · exact absurd hw (List.not_mem_nil w)
      · exact ⟨i, (hflag i).mp hif, by rw [← markFold_val P _ i]; exact hiv⟩
    · rintro ⟨i, hiP, hiv⟩
      refine Or.inr ⟨i, ?_, (hflag i).mpr hiP, by rw [markFold_val P _ i]; exact hiv⟩
      rw [List.mem_range, markFold_length]
      exact hP i hiP
  refine ⟨d₁, (List.range ((Sentence.new raw (Service.tokenize ⟨stem, []⟩
      raw)).tokens.length)).foldl (fun s i =>
        if d₁.contains ((s.tokens.getD i default).val) = true then s.setStopWord i
        else s) (Sentence.new raw (Service.tokenize ⟨stem, []⟩ raw)), ?_, ?_, ?_, ?_⟩
  · exact runEnrichers_single_ok (stopword_enrichGo_nomatch _ false _ _ (fun i _ => rfl))
  · exact hrun
  · exact runEnrichers_single_ok (stopword_enrichGo_nobrake d₁.contains _ _)
  · rw [stopword_extract_eq]
    have hlen2 : ((List.range ((Sentence.new raw (Service.tokenize ⟨stem, []⟩
        raw)).tokens.length)).foldl (fun s i =>
          if d₁.contains ((s.tokens.getD i default).val) = true then s.setStopWord i
          else s) (Sentence.new raw (Service.tokenize ⟨stem, []⟩ raw))).tokens.length =
        (Service.tokenize ⟨stem, []⟩ raw).length :=
      condFold_length _ _ _
    rw [hlen2, ← filterMap_if_eq_filter_map (fun j => P.contains j)
      (fun i => (Loc.new i 1, (Sentence.new raw (Service.tokenize ⟨stem, []⟩ raw)).by_loc
        (((Service.tokenize ⟨stem, []⟩ raw).getD i default).loc)))
      (List.range (Service.tokenize ⟨stem, []⟩ raw).length)]
    refine List.filterMap_congr ?_
    intro i hi
    have hilen : i < (Sentence.new raw (Service.tokenize ⟨stem, []⟩
        raw)).tokens.length := List.mem_range.mp hi
    have hcond : ((((List.range ((Sentence.new raw (Service.tokenize ⟨stem, []⟩
        raw)).tokens.length)).foldl (fun s i =>
          if d₁.contains ((s.tokens.getD i default).val) = true then s.setStopWord i
          else s) (Sentence.new raw (Service.tokenize ⟨stem, []⟩
            raw))).tokens.getD i default).get_meta STOP_WORD).isSome = true ↔ i ∈ P := by
      rw [condFold_get_meta]
      by_cases hiP : i ∈ P
      · have hct : d₁.contains (((Sentence.new raw (Service.tokenize ⟨stem, []⟩
            raw)).tokens.getD i default).val) = true := by
          have hmem := (hd₁ _).mpr ⟨i, hiP, rfl⟩
          simpa [LocalDictionary.contains] using hmem
        rw [if_pos ⟨hi, hilen, hct⟩]
        simp [hiP]
      · have hcf : d₁.contains (((Sentence.new raw (Service.tokenize ⟨stem, []⟩
            raw)).tokens.getD i default).val) = false := by
          by_contra hc
          rw [Bool.not_eq_false] at hc
          have hmem : (((Sentence.new raw (Service.tokenize ⟨stem, []⟩
              raw)).tokens.getD i default).val) ∈ d₁.dictionary := by
            simpa [LocalDictionary.contains] using hc
          obtain ⟨p, hpP, hpv⟩ := (hd₁ _).mp hmem
          exact hdistinct i hilen hiP (List.mem_map.mpr ⟨p, hpP, hpv⟩)
        rw [if_neg (fun hh => by rw [hcf] at hh; exact Bool.noConfusion hh.2.2), hmetaN]
        simp [hiP]
    by_cases hiP : i ∈ P
    · rw [if_pos (hcond.mpr hiP), if_pos (by simpa using hiP)]
      have hraw : ((List.range ((Sentence.new raw (Service.tokenize ⟨stem, []⟩
          raw)).tokens.length)).foldl (fun s i =>
            if d₁.contains ((s.tokens.getD i default).val) = true then s.setStopWord i
            else s) (Sentence.new raw (Service.tokenize ⟨stem, []⟩ raw))).raw =
          (Sentence.new raw (Service.tokenize ⟨stem, []⟩ raw)).raw := condFold_raw _ _ _
      have hloc := condFold_loc d₁.contains
        (List.range ((Sentence.new raw (Service.tokenize ⟨stem, []⟩ raw)).tokens.length))
        (Sentence.new raw (Service.tokenize ⟨stem, []⟩ raw)) i
      rw [show ∀ (sa : Sentence) (l : Loc), sa.by_loc l =
          (⟨(sa.raw.toList.drop l.start_index).take l.len⟩ : String) from fun sa l => rfl,
        hraw, hloc]
      rfl
    · rw [if_neg (fun hh => hiP (hcond.mp hh)),
        if_neg (fun hh => hiP (by simpa using hh))]

/-- Counterexample for C7 as stated: on the raw text `"w w"`, flagging only
position 0 and learning makes the second produce flag both positions (their
values coincide), so `extract` does not report exactly the chosen
positions. -/
theorem stopword_learning_round_trip_cx :
    Service.sentence ⟨id, [StopWordEnricher.enrichFn
        (LocalDictionary.new [] : LocalDictionary EmptyDict).contains false]⟩ "w w" =
      .ok (Sentence.new "w w" (Service.tokenize ⟨id, []⟩ "w w")) ∧
      (StopWordEnricher.update (LocalDictionary.add EmptyDict.add)
        (LocalDictionary.new [] : LocalDictionary EmptyDict)
        (([0] : List Nat).foldl Sentence.setStopWord
          (Sentence.new "w w" (Service.tokenize ⟨id, []⟩ "w w")))).map
        (fun d₁ => (Service.sentence ⟨id, [StopWordEnricher.enrichFn d₁.contains false]⟩
          "w w").map StopWordEnricher.extract) =
        .ok (.ok [(Loc.new 0 1, "w"), (Loc.new 1 1, "w")]) ∧
      [(Loc.new 0 1, "w"), (Loc.new 1 1, "w")] ≠ [(Loc.new 0 1, "w")] :=
  ⟨rfl, rfl, by decide⟩

/-- Witness for C7 on the reference learning input with four distinct stop
words at positions 1, 4, 6 and 8. -/
theorem stopword_learning_round_trip_witness :
    (∀ p ∈ ([1, 4, 6, 8] : List Nat),
      p < (Service.tokenize ⟨id, []⟩ "У g меня 120 w печеник s кукиу f").length) ∧
    ∃ (d₁ : LocalDictionary EmptyDict) (s₂ : Sentence),
      Service.sentence ⟨id, [StopWordEnricher.enrichFn
          (LocalDictionary.new [] : LocalDictionary EmptyDict).contains false]⟩
        "У g меня 120 w печеник s кукиу f" =
        .ok (Sentence.new "У g меня 120 w печеник s кукиу f"
          (Service.tokenize ⟨id, []⟩ "У g меня 120 w печеник s кукиу f")) ∧
      StopWordEnricher.update (LocalDictionary.add EmptyDict.add)
        (LocalDictionary.new [] : LocalDictionary EmptyDict)
        (([1, 4, 6, 8] : List Nat).foldl Sentence.setStopWord
          (Sentence.new "У g меня 120 w печеник s кукиу f"
            (Service.tokenize ⟨id, []⟩ "У g меня 120 w печеник s кукиу f"))) = .ok d₁ ∧
      Service.sentence ⟨id, [StopWordEnricher.enrichFn d₁.contains false]⟩
        "У g меня 120 w печеник s кукиу f" = .ok s₂ ∧
      StopWordEnricher.extract s₂ =
        ((List.range (Service.tokenize ⟨id, []⟩
          "У g меня 120 w печеник s кукиу f").length).filter
          (fun j => ([1, 4, 6, 8] : List Nat).contains j)).map
          (fun i => (Loc.new i 1, (Sentence.new "У g меня 120 w печеник s кукиу f"
            (Service.tokenize ⟨id, []⟩ "У g меня 120 w печеник s кукиу f")).by_loc
            (((Service.tokenize ⟨id, []⟩
              "У g меня 120 w печеник s кукиу f").getD i default).loc))) :=
  ⟨by decide, stopword_learning_round_trip id "У g меня 120 w печеник s кукиу f"
    [1, 4, 6, 8] (by decide) (by decide)⟩

/-- Witness for C5: the `{"w","s","f","g"}` dictionary with aborting on makes
`sentence` fail on an input whose fourth token is `"w"`. -/
theorem stopword_abort_on_first_match_witness :
    (((LocalDictionary.new ["w", "s", "f", "g"] : LocalDictionary EmptyDict)).contains
        (((Service.tokenize ⟨id, [StopWordEnricher.enrichFn
          (LocalDictionary.new ["w", "s", "f", "g"] : LocalDictionary EmptyDict).contains true]⟩
          "У меня 120 w печеник").getD 3 default).val) = true) ∧
      Service.sentence ⟨id, [StopWordEnricher.enrichFn
          (LocalDictionary.new ["w", "s", "f", "g"] : LocalDictionary EmptyDict).contains true]⟩
        "У меня 120 w печеник" = .error (.stopWord "w") := by
  have h := stopword_abort_on_first_match id
    (LocalDictionary.new ["w", "s", "f", "g"] : LocalDictionary EmptyDict)
    "У меня 120 w печеник" 3 (by decide) (by decide)
    (by decide)
  exact ⟨by decide, by rw [h]; rfl⟩

end Marcker
